import Mathlib

/-!
# net-icmp-ping: checksum, header codec, probe loop and statistics

A shallow embedding of `main.go`.  Bytes are `Fin 256`, `uint16` fields are
`Fin 65536`, the `uint32` accumulator of `checksum` is a `Nat` reduced
`% 2^32` after every addition, and `time.Duration` (an `int64`) is an `Int`
wrapped into the signed 64-bit range where the source adds.
-/

namespace Ping

/-- A Go `byte` / `uint8`. -/
abbrev Byte := Fin 256

/-- A Go `uint16`. -/
abbrev U16 := Fin 65536

/-! ## `checksum` (main.go 55-67) -/

/-- The byte `data[i]` as a number (0 when `i` is out of range; every use
below is in range). -/
def byteAt (data : List Byte) (i : Nat) : Nat := (data.getD i 0).val

/-- The call `binary.BigEndian.Uint16(data[i : i+2])`, which returns
`uint16(b[1]) | uint16(b[0])<<8` for `b = data[i : i+2]`. -/
def beUint16 (data : List Byte) (i : Nat) : Nat :=
  byteAt data (i + 1) ||| (byteAt data i <<< 8)

/-- The first loop of `checksum`:
`for i := 0; i < len(data)-1; i += 2 { sum += uint32(Uint16(data[i:i+2])) }`.
The first argument bounds the number of iterations; `checksum` passes
`len(data)`, which the loop never exhausts because `i` grows by 2. -/
def sumLoop (data : List Byte) : Nat → Nat → Nat → Nat
  | 0, _, sum => sum
  | fuel + 1, i, sum =>
    if (i : Int) < (data.length : Int) - 1 then
      sumLoop data fuel (i + 2) ((sum + beUint16 data i) % 2 ^ 32)
    else sum

/-- The odd-length step:
`if len(data)%2 == 1 { sum += uint32(data[len(data)-1]) << 8 }`. -/
def addOddByte (data : List Byte) (sum : Nat) : Nat :=
  if data.length % 2 = 1 then
    (sum + (byteAt data (data.length - 1) <<< 8) % 2 ^ 32) % 2 ^ 32
  else sum

/-- The second loop of `checksum`:
`for (sum >> 16) > 0 { sum = (sum & 0xFFFF) + (sum >> 16) }`,
with a bound on the number of iterations as first argument. -/
def foldLoop : Nat → Nat → Nat
  | 0, sum => sum
  | fuel + 1, sum =>
    if (sum >>> 16) > 0 then foldLoop fuel ((sum &&& 0xFFFF) + (sum >>> 16))
    else sum

/-- The carry fold run on `sum`; each iteration strictly decreases `sum`, so
`sum` iterations are always enough. -/
def foldCarry (sum : Nat) : Nat := foldLoop sum sum

/-- The conversion and complement `^uint16(sum)`. -/
def notU16 (sum : Nat) : U16 :=
  ⟨(sum % 65536) ^^^ 0xFFFF, @Nat.xor_lt_two_pow _ _ 16 (Nat.mod_lt _ (by decide)) (by decide)⟩

/-- The function `checksum(data []byte) uint16`. -/
def checksum (data : List Byte) : U16 :=
  notU16 (foldCarry (addOddByte data (sumLoop data data.length 0 0)))

/-! ### RFC 1071, as the specification words it -/

/-- The big-endian 16-bit words of a buffer; a trailing odd byte is the high
byte of a zero-padded word. -/
def words : List Byte → List Nat
  | [] => []
  | [a] => [a.val * 256]
  | a :: b :: rest => (a.val * 256 + b.val) :: words rest

/-- One's-complement (end-around-carry) addition of two 16-bit values. -/
def onesAdd (a b : Nat) : Nat :=
  if a + b < 65536 then a + b else a + b - 65535

/-- The 16-bit one's-complement sum of a list of words. -/
def onesSum (ws : List Nat) : Nat := ws.foldl onesAdd 0

/-- The Internet checksum of RFC 1071: the bitwise NOT of the 16-bit
one's-complement sum of the buffer's big-endian words. -/
def rfc1071 (data : List Byte) : Nat := 65535 - onesSum (words data)

/-! ### Closed forms used in the proofs -/

/-- The value in `0 .. 65535` that a number folds to under end-around carry:
zero stays zero, any other number goes to its residue in `1 .. 65535`. -/
def ocNorm (s : Nat) : Nat := if s = 0 then 0 else (s - 1) % 65535 + 1

/-- The plain (unbounded) sum of the 16-bit words of a buffer. -/
def wordSum (data : List Byte) : Nat := (words data).sum

/-- The sum of the complete byte pairs of a buffer, as the first loop of
`checksum` visits them. -/
def pairSum : List Byte → Nat
  | a :: b :: rest => (a.val * 256 + b.val) + pairSum rest
  | _ => 0

/-! ## Headers (main.go 14-53) -/

/-- The conversion `byte(x)` / `uint8(x)`. -/
def toByte (n : Nat) : Byte := ⟨n % 256, Nat.mod_lt _ (by decide)⟩

/-- The conversion `uint16(x)`. -/
def toU16 (n : Nat) : U16 := ⟨n % 65536, Nat.mod_lt _ (by decide)⟩

/-- The struct `IPHeader`. -/
structure IPHeader where
  VersionAndIHL : Byte
  TypeOfService : Byte
  TotalLength : U16
  Identification : U16
  FlagsAndFragmentOffset : U16
  TimeToLive : Byte
  Protocol : Byte
  Checksum : U16
  SourceAddress : Fin 4 → Byte
  DestinationAddress : Fin 4 → Byte

/-- The struct `ICMPHeader`; its field `Type` is `Typ` here (`Type` is a
reserved word). -/
structure ICMPHeader where
  Typ : Byte
  Code : Byte
  Checksum : U16
  Identifier : U16
  SequenceNumber : U16
  Data : Fin 8 → Byte

/-- The function `populateIPPacket`: every field but the two addresses is
overwritten. -/
def populateIPPacket (iPStruct : IPHeader) : IPHeader :=
  { iPStruct with
    VersionAndIHL := 69
    TypeOfService := 0
    TotalLength := 28
    Identification := 0
    FlagsAndFragmentOffset := 0
    TimeToLive := 64
    Protocol := 1
    Checksum := 0 }

/-- The function `populateICMPPacket`; `pid` is the value of `os.Getpid()`.
The data field is left as it was. -/
def populateICMPPacket (pid : Nat) (iCMPStruct : ICMPHeader) : ICMPHeader :=
  { iCMPStruct with
    Typ := 8
    Code := 0
    Identifier := toU16 (pid &&& 0xFFFF)
    SequenceNumber := 0
    Checksum := 0 }

/-! ## `buildPacket` (main.go 69-98) -/

/-- The two bytes `binary.BigEndian` writes for a `uint16`:
`byte(v >> 8)`, `byte(v)`. -/
def putUint16 (v : U16) : List Byte := [toByte (v.val >>> 8), toByte v.val]

/-- The bytes `binary.Write(&buf, binary.BigEndian, ip)` appends for an
`IPHeader`: the fields in declaration order, integers big-endian. -/
def encodeIP (ip : IPHeader) : List Byte :=
  [ip.VersionAndIHL, ip.TypeOfService] ++ putUint16 ip.TotalLength ++
    putUint16 ip.Identification ++ putUint16 ip.FlagsAndFragmentOffset ++
    [ip.TimeToLive, ip.Protocol] ++ putUint16 ip.Checksum ++
    List.ofFn ip.SourceAddress ++ List.ofFn ip.DestinationAddress

/-- The bytes `binary.Write(&buf, binary.BigEndian, icmp)` appends for an
`ICMPHeader`. -/
def encodeICMP (icmp : ICMPHeader) : List Byte :=
  [icmp.Typ, icmp.Code] ++ putUint16 icmp.Checksum ++ putUint16 icmp.Identifier ++
    putUint16 icmp.SequenceNumber ++ List.ofFn icmp.Data

/-- The call `binary.Write` on an `ICMPHeader` into a fresh or reset
`bytes.Buffer`, followed by `Bytes()`.  The struct has a fixed size and a
`bytes.Buffer` accepts every write, so the call reports no error. -/
def writeICMP (icmp : ICMPHeader) : Except String (List Byte) := .ok (encodeICMP icmp)

/-- The call `binary.Write` on an `IPHeader`, as `writeICMP`. -/
def writeIP (ip : IPHeader) : Except String (List Byte) := .ok (encodeIP ip)

/-- What `buildPacket` leaves behind: the returned slice and the two headers
it has written their checksums into (they are passed by pointer). -/
structure Built where
  packet : List Byte
  ip : IPHeader
  icmp : ICMPHeader

/-- The function `buildPacket`.  The second write of each header ignores the
error result, as the source does. -/
def buildPacket (ip : IPHeader) (icmp : ICMPHeader) : Except String Built := do
  let icmp := { icmp with Checksum := 0 }
  let icmpBytes ← writeICMP icmp
  let icmp := { icmp with Checksum := checksum icmpBytes }
  let icmpBytes := match writeICMP icmp with
    | .ok b => b
    | .error _ => []
  let ip := { ip with Checksum := 0 }
  let ipBytes ← writeIP ip
  let ip := { ip with Checksum := checksum ipBytes }
  let ipBytes := match writeIP ip with
    | .ok b => b
    | .error _ => []
  let packet := ipBytes ++ icmpBytes
  return { packet := packet, ip := ip, icmp := icmp }

/-- The buffer `b` with the two bytes at positions `i` and `i + 1` set to
zero (what a verifier does to a checksum field before recomputing). -/
def zeroField (b : List Byte) (i : Nat) : List Byte := (b.set i 0).set (i + 1) 0

/-! ## Reply handling (main.go 172-191) -/

/-- A Go slice of bytes: `arr` holds the underlying array from the slice's
first element to the end of its capacity, `len` is the slice's length. -/
structure Slice where
  arr : List Byte
  len : Nat

/-- A slice over a whole buffer, as `make([]byte, n)` gives (length and
capacity both `n`). -/
def Slice.ofBuffer (buf : List Byte) : Slice := { arr := buf, len := buf.length }

/-- The slice expression `s[lo:hi]`; `none` is the run-time panic raised
unless `0 <= lo <= hi <= cap(s)`. -/
def Slice.slice (s : Slice) (lo hi : Int) : Option Slice :=
  if 0 ≤ lo ∧ lo ≤ hi ∧ hi ≤ (s.arr.length : Int) then
    some { arr := s.arr.drop lo.toNat, len := (hi - lo).toNat }
  else none

/-- The index expression `s[i]`; `none` is the run-time panic raised unless
`i < len(s)`. -/
def Slice.index (s : Slice) (i : Nat) : Option Byte :=
  if i < s.len then s.arr[i]? else none

/-- The call `binary.BigEndian.Uint16(b)`: `_ = b[1]`, then
`uint16(b[1]) | uint16(b[0])<<8`. -/
def bigEndianUint16 (b : Slice) : Option Nat := do
  let b1 ← b.index 1
  let b0 ← b.index 0
  return b1.val ||| (b0.val <<< 8)

/-- The call `binary.BigEndian.Uint64(b)`: `_ = b[7]`, then the eight bytes
or-ed together, `b[0]` most significant. -/
def bigEndianUint64 (b : Slice) : Option Nat := do
  let b7 ← b.index 7
  let b6 ← b.index 6
  let b5 ← b.index 5
  let b4 ← b.index 4
  let b3 ← b.index 3
  let b2 ← b.index 2
  let b1 ← b.index 1
  let b0 ← b.index 0
  return b7.val ||| (b6.val <<< 8) ||| (b5.val <<< 16) ||| (b4.val <<< 24) |||
    (b3.val <<< 32) ||| (b2.val <<< 40) ||| (b1.val <<< 48) ||| (b0.val <<< 56)

/-- The big-endian 64-bit value of the eight bytes `buf[i .. i+7]`, or-ed
together as `binary.BigEndian.Uint64` does. -/
def beUint64 (buf : List Byte) (i : Nat) : Nat :=
  byteAt buf (i + 7) ||| (byteAt buf (i + 6) <<< 8) ||| (byteAt buf (i + 5) <<< 16) |||
    (byteAt buf (i + 4) <<< 24) ||| (byteAt buf (i + 3) <<< 32) |||
    (byteAt buf (i + 2) <<< 40) ||| (byteAt buf (i + 1) <<< 48) ||| (byteAt buf i <<< 56)

/-- The conversion `int64(x)` of a `uint64`. -/
def toInt64 (x : Nat) : Int :=
  if x % 2 ^ 64 < 2 ^ 63 then ((x % 2 ^ 64 : Nat) : Int) else ((x % 2 ^ 64 : Nat) : Int) - 2 ^ 64

/-- An `int64` result of an addition that wraps around. -/
def wrapInt64 (x : Int) : Int := (x + 2 ^ 63) % 2 ^ 64 - 2 ^ 63

/-- The call `time.Since(time.Unix(0, sentTime))` at the wall-clock instant
`now` (nanoseconds since the epoch): the difference as a `time.Duration`,
which the time package clamps to the `int64` range. -/
def timeSince (now sentTime : Int) : Int :=
  if now - sentTime < -(2 ^ 63) then -(2 ^ 63)
  else if now - sentTime > 2 ^ 63 - 1 then 2 ^ 63 - 1
  else now - sentTime

/-- What `syscall.Recvfrom(fd, buf, 0)` hands back: an error (the receive
timed out), or the byte count `n`, the contents of `buf` afterwards and the
sender's address. -/
inductive RecvResult where
  | error
  | data (n : Int) (buf : List Byte) (src : Fin 4 → Byte)

/-- A line the probe loop prints. -/
inductive Line where
  | sendError
  | timedOut
  | reply (bytes : Int) (src : Fin 4 → Byte) (seq : Nat) (ttl : Nat) (elapsed : Int)

/-- The two accumulators of the probe loop: `receivedPackets` and `rtts`. -/
structure Counters where
  receivedPackets : Int
  rtts : List Int

/-- The body of `if icmpHeader[0] == 0 && icmpHeader[1] == 0 { ... }`
(main.go 181-189). -/
def acceptReply (now : Int) (c : Counters) (n : Int) (src : Fin 4 → Byte)
    (ipHeader icmpHeader : Slice) : Option (Counters × List Line) := do
  let receivedPackets := c.receivedPackets + 1
  let seq ← (icmpHeader.slice 6 8).bind bigEndianUint16
  let sentTime ← (icmpHeader.slice 8 16).bind bigEndianUint64
  let elapsed := timeSince now (toInt64 sentTime)
  let rtts := c.rtts ++ [elapsed]
  let ttl ← ipHeader.index 8
  return ({ receivedPackets := receivedPackets, rtts := rtts },
    [Line.reply (n - 20) src seq ttl.val elapsed])

/-- The receive step of one probe (main.go 173-191), given the result of
`Recvfrom` and the instant `now` at which `time.Since` is evaluated; `none`
is a run-time panic.  The socket is `AF_INET`, so the sender's address is
always a `SockaddrInet4` and the type assertion on `from` succeeds. -/
def handleRecv (now : Int) (c : Counters) : RecvResult → Option (Counters × List Line)
  | .error => some (c, [Line.timedOut])
  | .data n buf src =>
    if n ≥ 28 then do
      let ipHeader ← (Slice.ofBuffer buf).slice 0 20
      let icmpHeader ← (Slice.ofBuffer buf).slice 20 n
      let ty ← icmpHeader.index 0
      if ty = 0 then do
        let code ← icmpHeader.index 1
        if code = 0 then acceptReply now c n src ipHeader icmpHeader
        else some (c, [])
      else some (c, [])
    else some (c, [])

/-! ## One probe (main.go 159-193) -/

/-- The conversion `uint64(x)` of an `int64`. -/
def toUint64 (x : Int) : Nat := (x % 2 ^ 64).toNat

/-- The call `binary.BigEndian.PutUint64(data[:], v)` on the 8-byte data
field. -/
def putUint64 (v : Nat) : Fin 8 → Byte :=
  ![toByte (v >>> 56), toByte (v >>> 48), toByte (v >>> 40), toByte (v >>> 32),
    toByte (v >>> 24), toByte (v >>> 16), toByte (v >>> 8), toByte v]

/-- What the outside world does during one probe: the clock reading put
into the packet, whether `Sendto` succeeds, what `Recvfrom` returns and the
clock reading when the reply is timed. -/
structure ProbeEnv where
  sendTime : Int
  sendOk : Bool
  recv : RecvResult
  recvTime : Int

/-- An observable action of the probe loop. -/
inductive Action where
  | send (packet : List Byte) (ok : Bool)
  | recv
  | print (line : Line)
  | sleep

/-- The variables the probe loop works on, with the trace of its actions. -/
structure Session where
  ip : IPHeader
  icmp : ICMPHeader
  counters : Counters
  trace : List Action

/-- One iteration of the probe loop; `none` is a run-time panic.  A failed
send prints and `continue`s, which skips the rest of the body. -/
def probe (env : ProbeEnv) (s : Session) : Option Session :=
  let icmp1 : ICMPHeader :=
    { s.icmp with
      SequenceNumber := toU16 (s.icmp.SequenceNumber.val + 1)
      Data := putUint64 (toUint64 env.sendTime) }
  match buildPacket s.ip icmp1 with
  | .error _ => none
  | .ok b =>
    if env.sendOk = false then
      some { ip := b.ip, icmp := b.icmp, counters := s.counters,
             trace := s.trace ++ [Action.send b.packet false, Action.print Line.sendError] }
    else
      match handleRecv env.recvTime s.counters env.recv with
      | none => none
      | some (c, lines) =>
        some { ip := b.ip, icmp := b.icmp, counters := c,
               trace := s.trace ++ [Action.send b.packet true, Action.recv] ++
                 lines.map Action.print ++ [Action.sleep] }

/-! ## The probe loop (main.go 146-194) -/

/-- The session variables as `main` sets them up before the loop: an IP
header with the two addresses, an empty ICMP header, both populated, and
`receivedPackets := 0`, `rtts` empty. -/
def initSession (sourceIP destIP : Fin 4 → Byte) (pid : Nat) : Session :=
  { ip := populateIPPacket
      { VersionAndIHL := 0, TypeOfService := 0, TotalLength := 0, Identification := 0,
        FlagsAndFragmentOffset := 0, TimeToLive := 0, Protocol := 0, Checksum := 0,
        SourceAddress := sourceIP, DestinationAddress := destIP }
    icmp := populateICMPPacket pid
      { Typ := 0, Code := 0, Checksum := 0, Identifier := 0, SequenceNumber := 0,
        Data := fun _ => 0 }
    counters := { receivedPackets := 0, rtts := [] }
    trace := [] }

/-- The loop `for i := 0; i < 4; i++ { ... }`: `env i` is what the outside
world does during iteration `i`.  The first argument bounds the number of
iterations; `runProbes` passes 4, which is exactly what the loop needs. -/
def probeLoop (env : Nat → ProbeEnv) : Nat → Nat → Session → Option Session
  | 0, _, s => some s
  | fuel + 1, i, s =>
    if i < 4 then (probe (env i) s).bind (probeLoop env fuel (i + 1))
    else some s

/-- The whole probe loop run from a session state. -/
def runProbes (env : Nat → ProbeEnv) (s : Session) : Option Session :=
  probeLoop env 4 0 s

/-- What `Recvfrom` can return on the 1024-byte buffer `main` passes: an
error, or a count `0 <= n <= 1024` with the buffer's 1024 bytes. -/
def RecvResult.WellFormed : RecvResult → Prop
  | .error => True
  | .data n buf _ => buf.length = 1024 ∧ 0 ≤ n ∧ n ≤ 1024

instance : DecidablePred RecvResult.WellFormed := fun r =>
  match r with
  | .error => isTrue trivial
  | .data n buf _ =>
    if h : buf.length = 1024 ∧ 0 ≤ n ∧ n ≤ 1024 then isTrue h else isFalse h

/-- The packets handed to `Sendto`, in order. -/
def sentPackets : List Action → List (List Byte)
  | [] => []
  | Action.send packet _ :: rest => packet :: sentPackets rest
  | _ :: rest => sentPackets rest

/-- The kind of an action, without its payload. -/
inductive ActionKind where
  | sendOk
  | sendFailed
  | recv
  | print
  | sleep
  deriving DecidableEq

/-- The kind of an action. -/
def Action.kind : Action → ActionKind
  | .send _ true => ActionKind.sendOk
  | .send _ false => ActionKind.sendFailed
  | .recv => ActionKind.recv
  | .print _ => ActionKind.print
  | .sleep => ActionKind.sleep

/-! ## Statistics (main.go 196-229) -/

/-- The variables `sum`, `min`, `max` of the statistics loop. -/
structure Stats where
  sum : Int
  min : Int
  max : Int

/-- The body of `for _, r := range rtts`: two comparisons and
`sum += r` on `int64`. -/
def statsStep (a : Stats) (r : Int) : Stats :=
  let min := if r < a.min then r else a.min
  let max := if r > a.max then r else a.max
  { sum := wrapInt64 (a.sum + r), min := min, max := max }

/-- The block `var sum, min, max time.Duration; if len(rtts) > 0 { ... }`. -/
def computeStats (rtts : List Int) : Stats :=
  match rtts with
  | [] => { sum := 0, min := 0, max := 0 }
  | r0 :: _ => rtts.foldl statsStep { sum := 0, min := r0, max := r0 }

/-- The value `avg`: `int64(sum) / int64(len(rtts))` when there are samples
(Go's integer division truncates toward zero), else 0. -/
def computeAvg (sum : Int) (rtts : List Int) : Int :=
  if rtts.length > 0 then Int.tdiv sum (rtts.length : Int) else 0

/-! ### Loss percentage

The summary prints `float64(4-receivedPackets)/4*100`.  An IEEE-754
operation returns the exact result whenever that result is a binary64 value;
the functions below return the exact rational in that case and `none`
otherwise (where the operation would round). -/

/-- A sufficient test for a rational to be a binary64 value: in lowest terms
its numerator is below `2^53` in absolute value and its denominator is a
power of two not above `2^1021`. -/
def exactFloat64 (q : ℚ) : Bool :=
  decide (q.num.natAbs < 2 ^ 53) && decide (2 ^ Nat.log2 q.den = q.den) &&
    decide (Nat.log2 q.den ≤ 1021)

/-- The conversion `float64(i)`. -/
def float64OfInt (i : Int) : Option ℚ :=
  if exactFloat64 (i : ℚ) then some (i : ℚ) else none

/-- The division `a / b` on `float64`. -/
def float64Div (a b : ℚ) : Option ℚ :=
  if b ≠ 0 ∧ exactFloat64 (a / b) then some (a / b) else none

/-- The product `a * b` on `float64`. -/
def float64Mul (a b : ℚ) : Option ℚ :=
  if exactFloat64 (a * b) then some (a * b) else none

/-- The loss percentage of the summary line:
`float64(4-receivedPackets)/4*100`. -/
def lossPercent (receivedPackets : Int) : Option ℚ := do
  let x ← float64OfInt (4 - receivedPackets)
  let y ← float64Div x 4
  float64Mul y 100

/-! ### Mean deviation and the summary (main.go 216-234)

The mean deviation needs `float64` operations that round.  A finite
binary64 value is a rational; every operation below returns the exact
result rounded to the nearest binary64 value, ties to even (IEEE-754
round-to-nearest-even, 53 significant bits, spacing never below `2^-1074`),
and `none` where the result is not a finite value.  The product and the sum
of `sqDiffSum += diff * diff` are rounded one after the other, as the
compiler emits them for amd64 (no fused multiply-add).  The operations of
the loss percentage above are these restricted to the results that need no
rounding (`roundFloat64_of_exact`). -/

/-- The integer nearest to `t`, the even one of the two when `t` lies
half-way. -/
def roundHalfEven (t : ℚ) : Int :=
  if t - ⌊t⌋ < 1 / 2 then ⌊t⌋
  else if 1 / 2 < t - ⌊t⌋ then ⌊t⌋ + 1
  else if ⌊t⌋ % 2 = 0 then ⌊t⌋ else ⌊t⌋ + 1

/-- The exponent of the spacing of binary64 values around `q`: 52 below the
exponent of `q`, and never below `-1074`. -/
def ulpExp (q : ℚ) : Int := max (Int.log 2 |q| - 52) (-1074)

/-- The binary64 value nearest to the rational `q` (ties to even); `none`
when `q` is beyond the largest finite value. -/
def roundFloat64 (q : ℚ) : Option ℚ :=
  let r : ℚ := (roundHalfEven (q / 2 ^ ulpExp q) : ℚ) * 2 ^ ulpExp q
  if |r| < 2 ^ 1024 then some r else none

/-- The conversion `float64(i)` of an `int64`, rounded. -/
def roundedOfInt (i : Int) : Option ℚ := roundFloat64 (i : ℚ)

/-- The product `a * b` on `float64`, rounded. -/
def roundedMul (a b : ℚ) : Option ℚ := roundFloat64 (a * b)

/-- The sum `a + b` on `float64`, rounded. -/
def roundedAdd (a b : ℚ) : Option ℚ := roundFloat64 (a + b)

/-- The quotient `a / b` on `float64`, rounded; a zero divisor gives an
infinity or a NaN, which is `none` here. -/
def roundedDiv (a b : ℚ) : Option ℚ :=
  if b = 0 then none else roundFloat64 (a / b)

/-- The natural number nearest to the square root of `t >= 0`, the even one
of the two when the root lies half-way: with `s` the integer part of the
root, the root is below `s + 1/2` exactly when `t < s^2 + s + 1/4`. -/
def nearestSqrt (t : ℚ) : Nat :=
  let s : Nat := Nat.sqrt ⌊t⌋₊
  if t < (s : ℚ) ^ 2 + (s : ℚ) + 1 / 4 then s
  else if (s : ℚ) ^ 2 + (s : ℚ) + 1 / 4 < t then s + 1
  else if s % 2 = 0 then s else s + 1

/-- The call `math.Sqrt(y)` on a finite `float64`: the binary64 value
nearest to the square root (the operation is correctly rounded); a negative
argument gives a NaN, which is `none` here.  The spacing of binary64 values
around the root has half the exponent of `y`, less 52. -/
def roundedSqrt (y : ℚ) : Option ℚ :=
  if y < 0 then none
  else
    let e : Int := Int.log 2 y / 2 - 52
    some ((nearestSqrt (y / 2 ^ (2 * e)) : ℚ) * 2 ^ e)

/-- The conversion `int64(f)` of a `float64`: the fraction is discarded;
`none` when the result is not an `int64`. -/
def float64ToInt64 (f : ℚ) : Option Int :=
  let t : Int := if 0 ≤ f then ⌊f⌋ else ⌈f⌉
  if -(2 ^ 63) ≤ t ∧ t < 2 ^ 63 then some t else none

/-- The body of the second loop over `rtts`:
`diff := float64(r - avg); sqDiffSum += diff * diff`. -/
def sqDiffStep (avg : Int) (sqDiffSum : ℚ) (r : Int) : Option ℚ := do
  let diff ← roundedOfInt (wrapInt64 (r - avg))
  let sq ← roundedMul diff diff
  roundedAdd sqDiffSum sq

/-- The value `mdev`: zero, or for a non-empty list
`int64(math.Sqrt(sqDiffSum / float64(len(rtts))))`. -/
def computeMdev (rtts : List Int) (avg : Int) : Option Int := do
  let sqDiffSum ← rtts.foldlM (sqDiffStep avg) (0 : ℚ)
  if rtts.length > 0 then do
    let n ← roundedOfInt (rtts.length : Int)
    let q ← roundedDiv sqDiffSum n
    let root ← roundedSqrt q
    float64ToInt64 root
  else some 0

/-- The sum over the samples of `(sample - avg)^2`, in exact integers. -/
def sqDev (rtts : List Int) (avg : Int) : Int :=
  (rtts.map fun r => (r - avg) ^ 2).sum

/-- The division `a / b` on `int64`: a zero divisor is a run-time panic
(`none`), otherwise the quotient truncated toward zero. -/
def int64Div (a b : Int) : Option Int :=
  if b = 0 then none else some (wrapInt64 (Int.tdiv a b))

/-- The value `avg` with the division as Go performs it:
`if len(rtts) > 0 { avg = int64(sum) / int64(len(rtts)) }`. -/
def checkedAvg (sum : Int) (rtts : List Int) : Option Int :=
  if rtts.length > 0 then int64Div sum (rtts.length : Int) else some 0

/-- The values the summary lines print from. -/
structure Summary where
  received : Int
  loss : ℚ
  sum : Int
  min : Int
  avg : Int
  max : Int
  mdev : Int

/-- The statistics block of `main` (lines 196-234) on the loop's two
accumulators. -/
def summarize (c : Counters) : Option Summary := do
  let st := computeStats c.rtts
  let avg ← checkedAvg st.sum c.rtts
  let mdev ← computeMdev c.rtts avg
  let loss ← lossPercent c.receivedPackets
  return { received := c.receivedPackets, loss := loss, sum := st.sum, min := st.min,
           avg := avg, max := st.max, mdev := mdev }

/-! ## Sample inputs -/

/-- A buffer of 131076 bytes `0xFF` (65538 words `0xFFFF`). -/
def onesBuffer : List Byte := List.replicate 131076 255

/-- An IP header from 10.0.0.1 to 8.8.8.8, initialised as `main` does. -/
def sampleIP : IPHeader :=
  populateIPPacket
    { VersionAndIHL := 0, TypeOfService := 0, TotalLength := 0, Identification := 0,
      FlagsAndFragmentOffset := 0, TimeToLive := 0, Protocol := 0, Checksum := 0,
      SourceAddress := ![10, 0, 0, 1], DestinationAddress := ![8, 8, 8, 8] }

/-- An ICMP header of process 4660 (`0x1234`) for the first probe, with data
bytes 1 to 8. -/
def sampleICMP : ICMPHeader :=
  { populateICMPPacket 4660
      { Typ := 0, Code := 0, Checksum := 0, Identifier := 0, SequenceNumber := 0,
        Data := ![0, 0, 0, 0, 0, 0, 0, 0] } with
    SequenceNumber := 1
    Data := ![1, 2, 3, 4, 5, 6, 7, 8] }

/-- The session variables before the first probe: `sampleIP`, and the ICMP
header of process 4660 (`0x1234`) as `populateICMPPacket` leaves it. -/
def freshSession : Session :=
  { ip := sampleIP
    icmp := populateICMPPacket 4660
      { Typ := 0, Code := 0, Checksum := 0, Identifier := 0, SequenceNumber := 0,
        Data := ![0, 0, 0, 0, 0, 0, 0, 0] }
    counters := { receivedPackets := 0, rtts := [] }
    trace := [] }

/-- A receive buffer holding a 36-byte echo reply (type 0, code 0) from
8.8.8.8 with TTL 57, identifier `0x9999`, sequence number 7 and the instant
1000 in its data field. -/
def sampleReply : List Byte :=
  [69, 0, 0, 36, 0, 0, 0, 0, 57, 1, 0, 0, 8, 8, 8, 8, 10, 0, 0, 1,
    0, 0, 0, 0, 0x99, 0x99, 0, 7, 0, 0, 0, 0, 0, 0, 3, 232] ++ List.replicate 988 0

/-- A receive buffer holding a 36-byte destination-unreachable message
(type 3, code 1). -/
def sampleUnreachable : List Byte :=
  [69, 0, 0, 36, 0, 0, 0, 0, 57, 1, 0, 0, 10, 0, 0, 254, 10, 0, 0, 1,
    3, 1, 0, 0, 0, 0, 0, 0, 0, 0, 0, 0, 0, 0, 0, 0] ++ List.replicate 988 0

/-- A probe whose send succeeds and which receives `sampleReply` in full,
timed at the instant 6000. -/
def sampleEnv : ProbeEnv :=
  { sendTime := 1000, sendOk := true,
    recv := RecvResult.data 36 sampleReply ![8, 8, 8, 8], recvTime := 6000 }

/-- A probe whose send succeeds and whose receive times out. -/
def timeoutEnv : ProbeEnv :=
  { sendTime := 1000, sendOk := true, recv := RecvResult.error, recvTime := 0 }

/-- A probe whose send fails. -/
def sendFailEnv : ProbeEnv :=
  { sendTime := 1000, sendOk := false, recv := RecvResult.error, recvTime := 0 }

/-- A probe answered by `sampleReply` (send instant 1000), timed `rtt`
nanoseconds after that instant. -/
def replyEnv (rtt : Int) : ProbeEnv :=
  { sendTime := 1000, sendOk := true,
    recv := RecvResult.data 36 sampleReply ![8, 8, 8, 8], recvTime := 1000 + rtt }

/-- A run in which probes 1, 2 and 4 are answered after 5 ms, 7 ms and 6 ms
and probe 3 times out. -/
def threeOfFourEnv : Nat → ProbeEnv
  | 0 => replyEnv 5000000
  | 1 => replyEnv 7000000
  | 2 => timeoutEnv
  | _ => replyEnv 6000000

/-- A run in which the first send fails and the other three probes time
out. -/
def firstSendFailsEnv : Nat → ProbeEnv
  | 0 => sendFailEnv
  | _ => timeoutEnv

/-- Four samples (in ns) with deviations of about 318 ms from their mean
400000000, on which the rounding of `float64` shows in `mdev`. -/
def roundingSample : List Int := [718281039, 81718961, 400000001, 400000000]

/-! # Theorems -/

/-! ## Arithmetic of the carry fold -/

theorem ocNorm_lt (s : Nat) : ocNorm s < 65536 := by
  unfold ocNorm; split <;> omega

theorem ocNorm_of_lt {s : Nat} (h : s < 65536) : ocNorm s = s := by
  unfold ocNorm; split <;> omega

theorem ocNorm_fold_step {s : Nat} (h : 65536 ≤ s) :
    ocNorm (s % 65536 + s / 65536) = ocNorm s := by
  unfold ocNorm; split <;> split <;> omega

theorem foldLoop_eq (fuel s : Nat) (h : s ≤ fuel) : foldLoop fuel s = ocNorm s := by
  induction fuel generalizing s with
  | zero =>
    have : s = 0 := by omega
    subst this; rfl
  | succ k ih =>
    unfold foldLoop
    have hs : s >>> 16 = s / 65536 := by rw [Nat.shiftRight_eq_div_pow]
    have hm : s &&& 0xFFFF = s % 65536 := Nat.and_pow_two_sub_one_eq_mod s 16
    rw [hs, hm]
    by_cases hc : s / 65536 > 0
    · rw [if_pos hc]
      have h1 : 65536 ≤ s := by omega
      rw [ih _ (by omega), ocNorm_fold_step h1]
    · rw [if_neg hc, ocNorm_of_lt (by omega)]

theorem foldCarry_eq (s : Nat) : foldCarry s = ocNorm s :=
  foldLoop_eq s s (Nat.le_refl s)

theorem notU16_val (s : Nat) : (notU16 s).val = 65535 - s % 65536 := by
  show (s % 65536) ^^^ 0xFFFF = 65535 - s % 65536
  have hlt : s % 65536 < 2 ^ 16 := Nat.mod_lt _ (by decide)
  apply Nat.eq_of_testBit_eq
  intro i
  have h2 : 65535 - s % 65536 = 2 ^ 16 - (s % 65536 + 1) := by omega
  rw [h2, Nat.testBit_two_pow_sub_succ hlt, Nat.testBit_xor]
  have h3 : (0xFFFF : Nat) = 2 ^ 16 - 1 := by decide
  rw [h3, Nat.testBit_two_pow_sub_one]
  by_cases hi : i < 16
  · simp [hi]
  · have : (s % 65536).testBit i = false :=
      Nat.testBit_lt_two_pow (Nat.lt_of_lt_of_le hlt (Nat.pow_le_pow_right (by decide) (by omega)))
    simp [hi, this]

/-! ## The summing loop -/

theorem beUint16_eq (data : List Byte) (i : Nat) :
    beUint16 data i = byteAt data i * 256 + byteAt data (i + 1) := by
  have h1 : byteAt data (i + 1) < 2 ^ 8 := (data.getD (i + 1) 0).isLt
  unfold beUint16
  rw [Nat.or_comm, Nat.shiftLeft_eq, Nat.mul_comm (byteAt data i), ← Nat.mul_add_lt_is_or h1]

theorem pairSum_short {l : List Byte} (h : l.length ≤ 1) : pairSum l = 0 := by
  match l, h with
  | [], _ => rfl
  | [_], _ => rfl
  | _ :: _ :: _, h => simp at h

theorem sumLoop_eq (data : List Byte) (fuel i sum : Nat)
    (hfuel : data.length ≤ i + 2 * fuel) (hsum : sum < 2 ^ 32) :
    sumLoop data fuel i sum = (sum + pairSum (data.drop i)) % 2 ^ 32 := by
  induction fuel generalizing i sum with
  | zero =>
    have hd : data.drop i = [] := List.drop_eq_nil_of_le (by omega)
    rw [hd]
    simp only [sumLoop, pairSum, Nat.add_zero]
    exact (Nat.mod_eq_of_lt hsum).symm
  | succ k ih =>
    unfold sumLoop
    by_cases hc : (i : Int) < (data.length : Int) - 1
    · rw [if_pos hc]
      have h0 : i < data.length := by omega
      have h1 : i + 1 < data.length := by omega
      have hd : data.drop i = data[i] :: data[i + 1] :: data.drop (i + 2) := by
        rw [List.drop_eq_getElem_cons h0, List.drop_eq_getElem_cons h1]
      have hw : beUint16 data i = (data[i]).val * 256 + (data[i + 1]).val := by
        rw [beUint16_eq]
        simp [byteAt, List.getElem?_eq_getElem h0, List.getElem?_eq_getElem h1]
      rw [ih (i + 2) _ (by omega) (Nat.mod_lt _ (by decide)), hd, hw]
      simp only [pairSum]
      omega
    · rw [if_neg hc]
      have hp : pairSum (data.drop i) = 0 :=
        pairSum_short (by rw [List.length_drop]; omega)
      rw [hp, Nat.add_zero]
      exact (Nat.mod_eq_of_lt hsum).symm

theorem wordSum_eq_pairSum : ∀ data : List Byte,
    wordSum data =
      pairSum data + (if data.length % 2 = 1 then byteAt data (data.length - 1) * 256 else 0)
  | [] => by simp [wordSum, words, pairSum]
  | [a] => by simp [wordSum, words, pairSum, byteAt]
  | a :: b :: rest => by
    have ih := wordSum_eq_pairSum rest
    have hw : wordSum (a :: b :: rest) = (a.val * 256 + b.val) + wordSum rest := by
      simp [wordSum, words]
    rw [hw, ih]
    simp only [pairSum, List.length_cons]
    have hpar : (rest.length + 1 + 1) % 2 = rest.length % 2 := by omega
    rw [hpar]
    by_cases ho : rest.length % 2 = 1
    · rw [if_pos ho, if_pos ho]
      have hb : byteAt (a :: b :: rest) (rest.length + 1 + 1 - 1) =
          byteAt rest (rest.length - 1) := by
        have hn : rest.length + 1 + 1 - 1 = (rest.length - 1) + 1 + 1 := by omega
        rw [hn]
        simp [byteAt]
      rw [hb]
      omega
    · rw [if_neg ho, if_neg ho]
      omega

theorem addOddByte_sumLoop (data : List Byte) :
    addOddByte data (sumLoop data data.length 0 0) = wordSum data % 2 ^ 32 := by
  rw [sumLoop_eq data data.length 0 0 (by omega) (by decide), wordSum_eq_pairSum]
  simp only [List.drop_zero, Nat.zero_add]
  unfold addOddByte
  by_cases ho : data.length % 2 = 1
  · rw [if_pos ho, if_pos ho, Nat.shiftLeft_eq]
    omega
  · rw [if_neg ho, if_neg ho, Nat.add_zero]

/-- The value `checksum` returns, in closed form: the complement of the fold
of the word sum as the 32-bit accumulator holds it. -/
theorem checksum_val (data : List Byte) :
    (checksum data).val = 65535 - ocNorm (wordSum data % 2 ^ 32) := by
  unfold checksum
  rw [notU16_val, addOddByte_sumLoop, foldCarry_eq, Nat.mod_eq_of_lt (ocNorm_lt _)]

/-! ## The RFC 1071 sum -/

theorem words_lt : ∀ (data : List Byte) (w : Nat), w ∈ words data → w < 65536
  | [], w, h => by simp [words] at h
  | [a], w, h => by
    simp [words] at h
    have := a.isLt
    omega
  | a :: b :: rest, w, h => by
    simp only [words, List.mem_cons] at h
    rcases h with h | h
    · have := a.isLt
      have := b.isLt
      omega
    · exact words_lt rest w h

theorem onesAdd_eq {a w : Nat} (ha : a < 65536) (hw : w < 65536) :
    onesAdd a w = ocNorm (a + w) := by
  unfold onesAdd ocNorm
  split <;> split <;> omega

theorem ocNorm_add_left (a b : Nat) : ocNorm (ocNorm a + b) = ocNorm (a + b) := by
  unfold ocNorm
  split <;> split <;> split <;> omega

theorem foldl_onesAdd (ws : List Nat) (hws : ∀ w ∈ ws, w < 65536) (acc : Nat) :
    ws.foldl onesAdd (ocNorm acc) = ocNorm (acc + ws.sum) := by
  induction ws generalizing acc with
  | nil => simp
  | cons w rest ih =>
    have hw : w < 65536 := hws w (List.mem_cons_self _ _)
    rw [List.foldl_cons, onesAdd_eq (ocNorm_lt _) hw, ocNorm_add_left,
      ih (fun x hx => hws x (List.mem_cons_of_mem _ hx)), List.sum_cons, Nat.add_assoc]

theorem rfc1071_val (data : List Byte) : rfc1071 data = 65535 - ocNorm (wordSum data) := by
  unfold rfc1071 onesSum
  have h := foldl_onesAdd (words data) (words_lt data) 0
  rw [show ocNorm 0 = 0 from rfl, Nat.zero_add] at h
  rw [h, wordSum]

/-! ## The codec -/

theorem putUint16_zero : putUint16 0 = [0, 0] := by decide

theorem beUint16_putUint16 (v : U16) :
    (toByte (v.val >>> 8)).val * 256 + (toByte v.val).val = v.val := by
  have h := v.isLt
  simp only [toByte, Nat.shiftRight_eq_div_pow]
  omega

theorem encodeIP_eq (ip : IPHeader) :
    encodeIP ip =
      [ip.VersionAndIHL, ip.TypeOfService,
        toByte (ip.TotalLength.val >>> 8), toByte ip.TotalLength.val,
        toByte (ip.Identification.val >>> 8), toByte ip.Identification.val,
        toByte (ip.FlagsAndFragmentOffset.val >>> 8), toByte ip.FlagsAndFragmentOffset.val,
        ip.TimeToLive, ip.Protocol,
        toByte (ip.Checksum.val >>> 8), toByte ip.Checksum.val,
        ip.SourceAddress 0, ip.SourceAddress 1, ip.SourceAddress 2, ip.SourceAddress 3,
        ip.DestinationAddress 0, ip.DestinationAddress 1, ip.DestinationAddress 2,
        ip.DestinationAddress 3] := by
  simp only [encodeIP, putUint16, List.ofFn_succ, List.ofFn_zero, List.cons_append,
    List.nil_append, List.append_assoc]
  rfl

theorem encodeICMP_eq (icmp : ICMPHeader) :
    encodeICMP icmp =
      [icmp.Typ, icmp.Code,
        toByte (icmp.Checksum.val >>> 8), toByte icmp.Checksum.val,
        toByte (icmp.Identifier.val >>> 8), toByte icmp.Identifier.val,
        toByte (icmp.SequenceNumber.val >>> 8), toByte icmp.SequenceNumber.val,
        icmp.Data 0, icmp.Data 1, icmp.Data 2, icmp.Data 3,
        icmp.Data 4, icmp.Data 5, icmp.Data 6, icmp.Data 7] := by
  simp only [encodeICMP, putUint16, List.ofFn_succ, List.ofFn_zero, List.cons_append,
    List.nil_append, List.append_assoc]
  rfl

/-- The headers `buildPacket` ends with, and the packet it returns. -/
theorem buildPacket_eq (ip : IPHeader) (icmp : ICMPHeader) :
    buildPacket ip icmp =
      .ok
        { packet :=
            encodeIP { ip with Checksum := checksum (encodeIP { ip with Checksum := 0 }) } ++
              encodeICMP
                { icmp with Checksum := checksum (encodeICMP { icmp with Checksum := 0 }) }
          ip := { ip with Checksum := checksum (encodeIP { ip with Checksum := 0 }) }
          icmp := { icmp with Checksum := checksum (encodeICMP { icmp with Checksum := 0 }) } } :=
  rfl

/-! ## Bounds on the word sum -/

theorem wordSum_le : ∀ data : List Byte, wordSum data ≤ 65535 * ((data.length + 1) / 2)
  | [] => by simp [wordSum, words]
  | [a] => by
    have := a.isLt
    simp [wordSum, words]
    omega
  | a :: b :: rest => by
    have ih := wordSum_le rest
    have hw : wordSum (a :: b :: rest) = (a.val * 256 + b.val) + wordSum rest := by
      simp [wordSum, words]
    have := a.isLt
    have := b.isLt
    rw [hw]
    simp only [List.length_cons]
    omega

theorem wordSum_replicate (b : Byte) (n : Nat) :
    wordSum (List.replicate (2 * n) b) = n * (b.val * 256 + b.val) := by
  induction n with
  | zero => simp [wordSum, words]
  | succ k ih =>
    have hr : List.replicate (2 * (k + 1)) b = b :: b :: List.replicate (2 * k) b := by
      rw [show 2 * (k + 1) = 2 * k + 1 + 1 by omega, List.replicate_succ, List.replicate_succ]
    have hw : wordSum (b :: b :: List.replicate (2 * k) b) =
        (b.val * 256 + b.val) + wordSum (List.replicate (2 * k) b) := by
      simp [wordSum, words]
    rw [hr, hw, ih, Nat.succ_mul, Nat.add_comm]

/-! ## Claims about `checksum` -/

/-- C1 (as stated, refuted): on the buffer of 131076 bytes `0xFF` the 32-bit
accumulator wraps; `checksum` returns 1 while the RFC 1071 checksum is 0. -/
theorem checksum_ne_rfc1071_onesBuffer :
    (checksum onesBuffer).val = 1 ∧ rfc1071 onesBuffer = 0 ∧
      (checksum onesBuffer).val ≠ rfc1071 onesBuffer := by
  have hw : wordSum onesBuffer = 65538 * 65535 := by
    have hn : (131076 : Nat) = 2 * 65538 := by decide
    unfold onesBuffer
    rw [hn, wordSum_replicate]
    rfl
  have hc : (checksum onesBuffer).val = 1 := by
    rw [checksum_val, hw]
    decide
  have hr : rfc1071 onesBuffer = 0 := by
    rw [rfc1071_val, hw]
    decide
  exact ⟨hc, hr, by rw [hc, hr]; decide⟩

/-- C1 (amended): for every byte buffer of at most 131074 bytes, `checksum`
returns the RFC 1071 Internet checksum: the complement of the 16-bit
one's-complement sum of the buffer's big-endian words, a trailing odd byte
being the high byte of a zero-padded word. -/
theorem checksum_eq_rfc1071 (data : List Byte) (h : data.length ≤ 131074) :
    (checksum data).val = rfc1071 data := by
  have hb := wordSum_le data
  have hlt : wordSum data < 2 ^ 32 := by
    have h2 : (data.length + 1) / 2 ≤ 65537 := by omega
    have h3 : 65535 * ((data.length + 1) / 2) ≤ 65535 * 65537 := Nat.mul_le_mul_left _ h2
    have h4 : 65535 * 65537 < 2 ^ 32 := by decide
    omega
  rw [checksum_val, rfc1071_val, Nat.mod_eq_of_lt hlt]

/-- C1 (amended), at the three-byte buffer `45 00 1c`. -/
theorem checksum_eq_rfc1071_witness :
    ([0x45, 0x00, 0x1c] : List Byte).length ≤ 131074 ∧
      (checksum [0x45, 0x00, 0x1c]).val = rfc1071 [0x45, 0x00, 0x1c] :=
  ⟨by decide, checksum_eq_rfc1071 [0x45, 0x00, 0x1c] (by decide)⟩

/-! ## Claims about `buildPacket` -/

/-- C2: for every IP and ICMP header `buildPacket` returns a packet whose
two embedded checksums are self-consistent: the big-endian value at bytes
10-11 is the checksum of the first 20 bytes with bytes 10-11 zeroed, and the
value at bytes 22-23 is the checksum of everything after the first 20 bytes
with bytes 22-23 zeroed. -/
theorem buildPacket_checksums_self_consistent (ip : IPHeader) (icmp : ICMPHeader) :
    ∃ b, buildPacket ip icmp = .ok b ∧
      beUint16 b.packet 10 = (checksum ((zeroField b.packet 10).take 20)).val ∧
      beUint16 b.packet 22 = (checksum ((zeroField b.packet 22).drop 20)).val := by
  refine ⟨_, buildPacket_eq ip icmp, ?_, ?_⟩
  · have hz : (zeroField
        (encodeIP { ip with Checksum := checksum (encodeIP { ip with Checksum := 0 }) } ++
          encodeICMP
            { icmp with Checksum := checksum (encodeICMP { icmp with Checksum := 0 }) }) 10).take
          20 = encodeIP { ip with Checksum := 0 } := by
      simp only [encodeIP_eq, encodeICMP_eq, zeroField]
      rfl
    simp only [hz]
    simp only [encodeIP_eq, encodeICMP_eq, beUint16_eq, byteAt]
    exact beUint16_putUint16 _
  · have hz : (zeroField
        (encodeIP { ip with Checksum := checksum (encodeIP { ip with Checksum := 0 }) } ++
          encodeICMP
            { icmp with Checksum := checksum (encodeICMP { icmp with Checksum := 0 }) }) 22).drop
          20 = encodeICMP { icmp with Checksum := 0 } := by
      simp only [encodeIP_eq, encodeICMP_eq, zeroField]
      rfl
    simp only [hz]
    simp only [encodeIP_eq, encodeICMP_eq, beUint16_eq, byteAt]
    exact beUint16_putUint16 _

/-- C3 (as stated, refuted): for the sample headers the returned packet has
36 bytes, not 28. -/
theorem buildPacket_sample_length_ne_28 :
    ∃ b, buildPacket sampleIP sampleICMP = .ok b ∧ b.packet.length = 36 ∧
      b.packet.length ≠ 28 := by
  refine ⟨_, buildPacket_eq sampleIP sampleICMP, ?_, ?_⟩
  · simp [encodeIP_eq, encodeICMP_eq]
  · simp [encodeIP_eq, encodeICMP_eq]

/-- C3 (amended): for every IP header and every ICMP header, `buildPacket`
returns a packet of exactly 36 bytes: the 20-byte IP header followed by the
16 bytes of the ICMP header with its 8-byte data field. -/
theorem buildPacket_length (ip : IPHeader) (icmp : ICMPHeader) :
    ∃ b, buildPacket ip icmp = .ok b ∧ b.packet.length = 36 := by
  refine ⟨_, buildPacket_eq ip icmp, ?_⟩
  simp [encodeIP_eq, encodeICMP_eq]

/-- C4: for every IP header initialised by `populateIPPacket` and every ICMP
header initialised by `populateICMPPacket`, whatever the addresses, the
process id, the sequence number and the data bytes, the packet `buildPacket`
returns has total length 28 at bytes 2-3 (`00 1C`), protocol 1 at byte 9,
ICMP type 8 at byte 20 and ICMP code 0 at byte 21, read from the slices
`[0:20]` and `[20:28]`. -/
theorem buildPacket_parses_back (ip0 : IPHeader) (icmp0 : ICMPHeader) (pid : Nat)
    (seq : U16) (data : Fin 8 → Byte) :
    ∃ b, buildPacket (populateIPPacket ip0)
        { populateICMPPacket pid icmp0 with SequenceNumber := seq, Data := data } = .ok b ∧
      beUint16 (b.packet.take 20) 2 = 28 ∧
      byteAt (b.packet.take 20) 2 = 0x00 ∧ byteAt (b.packet.take 20) 3 = 0x1C ∧
      byteAt (b.packet.take 20) 9 = 1 ∧
      byteAt ((b.packet.drop 20).take 8) 0 = 8 ∧
      byteAt ((b.packet.drop 20).take 8) 1 = 0 ∧
      byteAt b.packet 20 = 8 ∧ byteAt b.packet 21 = 0 := by
  refine ⟨_, buildPacket_eq _ _, ?_⟩
  simp only [encodeIP_eq, encodeICMP_eq, populateIPPacket, populateICMPPacket]
  refine ⟨?_, ?_, ?_, ?_, ?_, ?_, ?_, ?_⟩ <;> simp [beUint16_eq, byteAt, toByte] <;> decide

/-! ## Slices of the receive buffer -/

theorem slice_ofBuffer (buf : List Byte) (lo hi : Nat) (h1 : lo ≤ hi) (h2 : hi ≤ buf.length) :
    (Slice.ofBuffer buf).slice (lo : Int) (hi : Int) =
      some { arr := buf.drop lo, len := hi - lo } := by
  unfold Slice.slice Slice.ofBuffer
  have hc : (0 : Int) ≤ (lo : Int) ∧ (lo : Int) ≤ (hi : Int) ∧ (hi : Int) ≤ (buf.length : Int) := by
    omega
  rw [if_pos hc]
  have h3 : ((hi : Int) - (lo : Int)).toNat = hi - lo := by omega
  simp [h3]

theorem index_drop (buf : List Byte) (k len i : Nat) (hi : i < len) (hk : k + i < buf.length) :
    Slice.index { arr := buf.drop k, len := len } i = some (buf.getD (k + i) 0) := by
  unfold Slice.index
  simp only [hi, if_true]
  rw [List.getElem?_drop, List.getElem?_eq_getElem hk, List.getD_eq_getElem?_getD,
    List.getElem?_eq_getElem hk]
  rfl

theorem slice_drop (buf : List Byte) (k len lo hi : Nat) (h1 : lo ≤ hi)
    (h2 : k + hi ≤ buf.length) :
    Slice.slice { arr := buf.drop k, len := len } (lo : Int) (hi : Int) =
      some { arr := buf.drop (k + lo), len := hi - lo } := by
  unfold Slice.slice
  have hc : (0 : Int) ≤ (lo : Int) ∧ (lo : Int) ≤ (hi : Int) ∧
      (hi : Int) ≤ ((buf.drop k).length : Int) := by
    rw [List.length_drop]
    omega
  rw [if_pos hc]
  have h3 : ((hi : Int) - (lo : Int)).toNat = hi - lo := by omega
  simp [h3, List.drop_drop, Nat.add_comm]

theorem bigEndianUint16_drop (buf : List Byte) (k : Nat) (hk : k + 2 ≤ buf.length) :
    bigEndianUint16 { arr := buf.drop k, len := 2 } = some (beUint16 buf k) := by
  unfold bigEndianUint16
  rw [index_drop buf k 2 1 (by omega) (by omega), index_drop buf k 2 0 (by omega) (by omega)]
  rfl

theorem bigEndianUint64_drop (buf : List Byte) (k : Nat) (hk : k + 8 ≤ buf.length) :
    bigEndianUint64 { arr := buf.drop k, len := 8 } = some (beUint64 buf k) := by
  unfold bigEndianUint64
  rw [index_drop buf k 8 7 (by omega) (by omega), index_drop buf k 8 6 (by omega) (by omega),
    index_drop buf k 8 5 (by omega) (by omega), index_drop buf k 8 4 (by omega) (by omega),
    index_drop buf k 8 3 (by omega) (by omega), index_drop buf k 8 2 (by omega) (by omega),
    index_drop buf k 8 1 (by omega) (by omega), index_drop buf k 8 0 (by omega) (by omega)]
  rfl

/-- The sample taken from a reply: the time since the instant written in
buffer bytes 28-35. -/
theorem acceptReply_eq (now : Int) (c : Counters) (n : Int) (src : Fin 4 → Byte)
    (buf : List Byte) (len : Nat) (hlen : 36 ≤ buf.length) :
    acceptReply now c n src { arr := buf.drop 0, len := 20 } { arr := buf.drop 20, len := len } =
      some
        ({ receivedPackets := c.receivedPackets + 1,
           rtts := c.rtts ++ [timeSince now (toInt64 (beUint64 buf 28))] },
          [Line.reply (n - 20) src (beUint16 buf 26) (byteAt buf 8)
            (timeSince now (toInt64 (beUint64 buf 28)))]) := by
  unfold acceptReply
  have h68 := slice_drop buf 20 len 6 8 (by omega) (by omega)
  have h816 := slice_drop buf 20 len 8 16 (by omega) (by omega)
  have hi8 := index_drop buf 0 20 8 (by omega) (by omega)
  simp only [Nat.cast_ofNat] at h68 h816
  rw [h68, h816, hi8]
  simp only [Option.bind_eq_bind, Option.some_bind, Nat.reduceSub, Nat.reduceAdd]
  rw [bigEndianUint16_drop buf 26 (by omega), bigEndianUint64_drop buf 28 (by omega)]
  rfl

/-- The receive step on a buffer of at least 36 bytes holding `m >= 28`
received bytes: the type and code bytes alone decide. -/
theorem handleRecv_data (now : Int) (c : Counters) (m : Nat) (src : Fin 4 → Byte)
    (buf : List Byte) (h28 : 28 ≤ m) (hm : m ≤ buf.length) (hlen : 36 ≤ buf.length) :
    handleRecv now c (.data (m : Int) buf src) =
      if buf.getD 20 0 = 0 ∧ buf.getD 21 0 = 0 then
        some
          ({ receivedPackets := c.receivedPackets + 1,
             rtts := c.rtts ++ [timeSince now (toInt64 (beUint64 buf 28))] },
            [Line.reply ((m : Int) - 20) src (beUint16 buf 26) (byteAt buf 8)
              (timeSince now (toInt64 (beUint64 buf 28)))])
      else some (c, []) := by
  unfold handleRecv
  have hge : (m : Int) ≥ 28 := by omega
  have hs0 := slice_ofBuffer buf 0 20 (by omega) (by omega)
  have hs1 := slice_ofBuffer buf 20 m (by omega) hm
  have hi0 := index_drop buf 20 (m - 20) 0 (by omega) (by omega)
  have hi1 := index_drop buf 20 (m - 20) 1 (by omega) (by omega)
  simp only [Nat.cast_ofNat, Nat.cast_zero] at hs0 hs1
  simp only [hge, if_true, hs0, hs1, Option.bind_eq_bind, Option.some_bind, hi0, hi1]
  simp only [Nat.add_zero, Nat.reduceAdd]
  by_cases h0 : buf.getD 20 0 = 0
  · by_cases h1 : buf.getD 21 0 = 0
    · rw [if_pos h0, if_pos h1, if_pos ⟨h0, h1⟩]
      exact acceptReply_eq now c m src buf (m - 20) hlen
    · rw [if_pos h0, if_neg h1, if_neg (fun h => h1 h.2)]
  · rw [if_neg h0, if_neg (fun h => h0 h.1)]

/-! ## Claims about the receive step -/

/-- C5: in the receive step on the 1024-byte buffer, a reply shorter than 28
bytes, or one whose ICMP type byte (buffer byte 20) or code byte (buffer
byte 21) is not zero, is discarded: the received count and the samples are
what they were, as they are when the receive fails. -/
theorem handleRecv_discards (now : Int) (c : Counters) (n : Int) (buf : List Byte)
    (src : Fin 4 → Byte) (hlen : buf.length = 1024) (hn : n ≤ 1024)
    (hbad : n < 28 ∨ byteAt buf 20 ≠ 0 ∨ byteAt buf 21 ≠ 0) :
    handleRecv now c (.data n buf src) = some (c, []) ∧
      handleRecv now c .error = some (c, [Line.timedOut]) := by
  refine ⟨?_, rfl⟩
  by_cases h28 : n < 28
  · simp only [handleRecv]
    rw [if_neg (by omega)]
  · obtain ⟨m, rfl⟩ := Int.eq_ofNat_of_zero_le (by omega : 0 ≤ n)
    rw [handleRecv_data now c m src buf (by omega) (by omega) (by omega)]
    have hne : ¬ (buf.getD 20 0 = 0 ∧ buf.getD 21 0 = 0) := by
      rintro ⟨h0, h1⟩
      rcases hbad with h | h | h
      · exact h28 h
      · exact h (by show (buf.getD 20 0).val = 0; rw [h0]; rfl)
      · exact h (by show (buf.getD 21 0).val = 0; rw [h1]; rfl)
    rw [if_neg hne]

set_option maxRecDepth 100000 in
/-- C5, at the destination-unreachable message `sampleUnreachable`. -/
theorem handleRecv_discards_witness :
    handleRecv 6000 { receivedPackets := 2, rtts := [5, 7] }
        (.data 36 sampleUnreachable ![10, 0, 0, 254]) =
        some ({ receivedPackets := 2, rtts := [5, 7] }, []) ∧
      handleRecv 6000 { receivedPackets := 2, rtts := [5, 7] } .error =
        some ({ receivedPackets := 2, rtts := [5, 7] }, [Line.timedOut]) :=
  handleRecv_discards 6000 { receivedPackets := 2, rtts := [5, 7] } 36 sampleUnreachable
    ![10, 0, 0, 254] (by decide) (by decide) (Or.inr (Or.inl (by decide)))

/-- C6: when the send succeeds and the 1024-byte buffer holds a reply of at
least 28 bytes with ICMP type and code 0/0, the probe accepts it whatever
sequence number the session is at and whatever sequence number the reply
carries: the received count grows by one, one sample is appended, and the
line printed reports the big-endian value of buffer bytes 26-27. -/
theorem probe_accepts_any_sequence (env : ProbeEnv) (s : Session) (n : Int)
    (buf : List Byte) (src : Fin 4 → Byte) (hsend : env.sendOk = true)
    (hrecv : env.recv = .data n buf src) (hlen : buf.length = 1024) (h28 : 28 ≤ n)
    (hn : n ≤ 1024) (hty : byteAt buf 20 = 0) (hcode : byteAt buf 21 = 0) :
    ∃ s' pkt elapsed, probe env s = some s' ∧
      s'.counters.receivedPackets = s.counters.receivedPackets + 1 ∧
      s'.counters.rtts = s.counters.rtts ++ [elapsed] ∧
      s'.trace = s.trace ++
        [Action.send pkt true, Action.recv,
          Action.print (Line.reply (n - 20) src (beUint16 buf 26) (byteAt buf 8) elapsed),
          Action.sleep] := by
  obtain ⟨m, rfl⟩ := Int.eq_ofNat_of_zero_le (by omega : 0 ≤ n)
  have h0 : buf.getD 20 0 = 0 := Fin.ext hty
  have h1 : buf.getD 21 0 = 0 := Fin.ext hcode
  have hr := handleRecv_data env.recvTime s.counters m src buf (by omega) (by omega) (by omega)
  rw [if_pos ⟨h0, h1⟩] at hr
  obtain ⟨b, hb⟩ : ∃ b, buildPacket s.ip
      { s.icmp with
        SequenceNumber := toU16 (s.icmp.SequenceNumber.val + 1)
        Data := putUint64 (toUint64 env.sendTime) } = .ok b := ⟨_, buildPacket_eq _ _⟩
  refine ⟨{ ip := b.ip, icmp := b.icmp,
            counters :=
              { receivedPackets := s.counters.receivedPackets + 1,
                rtts := s.counters.rtts ++ [timeSince env.recvTime (toInt64 (beUint64 buf 28))] },
            trace := s.trace ++
              [Action.send b.packet true, Action.recv,
                Action.print (Line.reply ((m : Int) - 20) src (beUint16 buf 26) (byteAt buf 8)
                  (timeSince env.recvTime (toInt64 (beUint64 buf 28)))),
                Action.sleep] },
    b.packet, timeSince env.recvTime (toInt64 (beUint64 buf 28)), ?_, rfl, rfl, rfl⟩
  unfold probe
  simp only [hb, hsend, hrecv, hr]
  simp

set_option maxRecDepth 100000 in
/-- C6, at the first probe of `freshSession` (sequence number 1) answered by
`sampleReply`, which carries sequence number 7. -/
theorem probe_accepts_any_sequence_witness :
    beUint16 sampleReply 26 = 7 ∧
      ∃ s' pkt elapsed, probe sampleEnv freshSession = some s' ∧
        s'.counters.receivedPackets = freshSession.counters.receivedPackets + 1 ∧
        s'.counters.rtts = freshSession.counters.rtts ++ [elapsed] ∧
        s'.trace = freshSession.trace ++
          [Action.send pkt true, Action.recv,
            Action.print
              (Line.reply (36 - 20) ![8, 8, 8, 8] (beUint16 sampleReply 26)
                (byteAt sampleReply 8) elapsed),
            Action.sleep] :=
  ⟨by decide,
    probe_accepts_any_sequence sampleEnv freshSession 36 sampleReply ![8, 8, 8, 8] rfl rfl
      (by decide) (by decide) (by decide) (by decide) (by decide)⟩

/-! ## The identifier is not looked at -/

theorem getD_set_ne (buf : List Byte) (i j : Nat) (x : Byte) (h : i ≠ j) :
    (buf.set i x).getD j 0 = buf.getD j 0 := by
  simp [List.getD_eq_getElem?_getD, List.getElem?_set_ne h]

theorem byteAt_set_ne (buf : List Byte) (i j : Nat) (x : Byte) (h : i ≠ j) :
    byteAt (buf.set i x) j = byteAt buf j := by
  unfold byteAt
  rw [getD_set_ne buf i j x h]

set_option maxRecDepth 100000 in
/-- C7 (as stated, refuted): the session's identifier is `0x1234`, the reply
in `sampleReply` carries identifier `0x9999`, and the probe counts it as
received and records a sample. -/
theorem probe_counts_foreign_identifier :
    freshSession.icmp.Identifier.val = 0x1234 ∧ beUint16 sampleReply 24 = 0x9999 ∧
      (probe sampleEnv freshSession).map
          (fun s => (s.icmp.Identifier.val, s.counters.receivedPackets, s.counters.rtts)) =
        some (0x1234, 1, [5000]) := by
  decide

/-- C7 (amended): the receive step does not look at the ICMP identifier: a
reply of at least 28 bytes with type and code 0/0 is counted as received and
yields its sample whatever bytes 24-25 of the buffer hold; putting any two
bytes there changes neither the count nor the sample. -/
theorem handleRecv_ignores_identifier (now : Int) (c : Counters) (n : Int)
    (buf : List Byte) (src : Fin 4 → Byte) (x y : Byte) (hlen : buf.length = 1024)
    (h28 : 28 ≤ n) (hn : n ≤ 1024) (hty : byteAt buf 20 = 0) (hcode : byteAt buf 21 = 0) :
    ∃ lines, handleRecv now c (.data n ((buf.set 24 x).set 25 y) src) =
      some
        ({ receivedPackets := c.receivedPackets + 1,
           rtts := c.rtts ++ [timeSince now (toInt64 (beUint64 buf 28))] }, lines) := by
  obtain ⟨m, rfl⟩ := Int.eq_ofNat_of_zero_le (by omega : 0 ≤ n)
  have hl : ((buf.set 24 x).set 25 y).length = 1024 := by simp [hlen]
  have hb : ∀ j, 24 ≠ j → 25 ≠ j → byteAt ((buf.set 24 x).set 25 y) j = byteAt buf j := by
    intro j h1 h2
    rw [byteAt_set_ne _ 25 j y h2, byteAt_set_ne _ 24 j x h1]
  have h0 : ((buf.set 24 x).set 25 y).getD 20 0 = 0 :=
    Fin.ext (by
      have := hb 20 (by decide) (by decide)
      unfold byteAt at this hty
      rw [this, hty]; rfl)
  have h1 : ((buf.set 24 x).set 25 y).getD 21 0 = 0 :=
    Fin.ext (by
      have := hb 21 (by decide) (by decide)
      unfold byteAt at this hcode
      rw [this, hcode]; rfl)
  have h64 : beUint64 ((buf.set 24 x).set 25 y) 28 = beUint64 buf 28 := by
    unfold beUint64
    rw [hb 28 (by decide) (by decide), hb (28 + 1) (by decide) (by decide),
      hb (28 + 2) (by decide) (by decide), hb (28 + 3) (by decide) (by decide),
      hb (28 + 4) (by decide) (by decide), hb (28 + 5) (by decide) (by decide),
      hb (28 + 6) (by decide) (by decide), hb (28 + 7) (by decide) (by decide)]
  rw [handleRecv_data now c m src _ (by omega) (by omega) (by omega), if_pos ⟨h0, h1⟩, h64]
  exact ⟨_, rfl⟩

set_option maxRecDepth 100000 in
/-- C7 (amended), at `sampleReply` with the identifier bytes replaced by
`0x12 0x35`. -/
theorem handleRecv_ignores_identifier_witness :
    ∃ lines, handleRecv 6000 { receivedPackets := 0, rtts := [] }
        (.data 36 ((sampleReply.set 24 0x12).set 25 0x35) ![8, 8, 8, 8]) =
      some
        ({ receivedPackets := 0 + 1,
           rtts := [] ++ [timeSince 6000 (toInt64 (beUint64 sampleReply 28))] }, lines) :=
  handleRecv_ignores_identifier 6000 { receivedPackets := 0, rtts := [] } 36 sampleReply
    ![8, 8, 8, 8] 0x12 0x35 (by decide) (by decide) (by decide) (by decide) (by decide)

/-! ## Loss percentage -/

theorem lossPercent_of_exact (m : Int) (h1 : exactFloat64 ((4 - m : Int) : ℚ) = true)
    (h2 : exactFloat64 (((4 - m : Int) : ℚ) / 4) = true)
    (h3 : exactFloat64 (((4 - m : Int) : ℚ) / 4 * 100) = true) :
    lossPercent m = some (((4 - m : Int) : ℚ) / 4 * 100) := by
  have h4 : (4 : ℚ) ≠ 0 := by norm_num
  simp only [lossPercent, float64OfInt, float64Div, float64Mul, h1, h2, h3, h4, if_true,
    Option.bind_eq_bind, Option.some_bind, ne_eq, not_false_eq_true, and_self]

theorem exactFloat64_of_num_den (q : ℚ) (n : Int) (d : Nat) (hn : q.num = n) (hd : q.den = d)
    (h1 : n.natAbs < 2 ^ 53) (h2 : 2 ^ Nat.log2 d = d) (h3 : Nat.log2 d ≤ 1021) :
    exactFloat64 q = true := by
  unfold exactFloat64
  rw [hn, hd, decide_eq_true h1, decide_eq_true h2, decide_eq_true h3]
  rfl

/-- C8: for every received count `m` with `0 <= m <= 4` every floating-point
step of `float64(4-m)/4*100` is exact, so the loss percentage printed is
exactly `(4 - m) / 4 * 100`. -/
theorem lossPercent_exact (m : Int) (h0 : 0 ≤ m) (h4 : m ≤ 4) :
    lossPercent m = some (((4 : ℚ) - (m : ℚ)) / 4 * 100) := by
  have hcast : (((4 - m : Int) : ℚ)) = (4 : ℚ) - (m : ℚ) := by push_cast; ring
  rw [← hcast]
  apply lossPercent_of_exact
  · interval_cases m
    · exact exactFloat64_of_num_den _ 4 1 (by norm_num) (by norm_num) (by decide) (by simp [Nat.log2]) (by simp [Nat.log2])
    · exact exactFloat64_of_num_den _ 3 1 (by norm_num) (by norm_num) (by decide) (by simp [Nat.log2]) (by simp [Nat.log2])
    · exact exactFloat64_of_num_den _ 2 1 (by norm_num) (by norm_num) (by decide) (by simp [Nat.log2]) (by simp [Nat.log2])
    · exact exactFloat64_of_num_den _ 1 1 (by norm_num) (by norm_num) (by decide) (by simp [Nat.log2]) (by simp [Nat.log2])
    · exact exactFloat64_of_num_den _ 0 1 (by norm_num) (by norm_num) (by decide) (by simp [Nat.log2]) (by simp [Nat.log2])
  · interval_cases m
    · exact exactFloat64_of_num_den _ 1 1 (by norm_num) (by norm_num) (by decide) (by simp [Nat.log2]) (by simp [Nat.log2])
    · exact exactFloat64_of_num_den _ 3 4 (by norm_num) (by norm_num) (by decide) (by simp [Nat.log2]) (by simp [Nat.log2])
    · exact exactFloat64_of_num_den _ 1 2 (by norm_num) (by norm_num) (by decide) (by simp [Nat.log2]) (by simp [Nat.log2])
    · exact exactFloat64_of_num_den _ 1 4 (by norm_num) (by norm_num) (by decide) (by simp [Nat.log2]) (by simp [Nat.log2])
    · exact exactFloat64_of_num_den _ 0 1 (by norm_num) (by norm_num) (by decide) (by simp [Nat.log2]) (by simp [Nat.log2])
  · interval_cases m
    · exact exactFloat64_of_num_den _ 100 1 (by norm_num) (by norm_num) (by decide) (by simp [Nat.log2]) (by simp [Nat.log2])
    · exact exactFloat64_of_num_den _ 75 1 (by norm_num) (by norm_num) (by decide) (by simp [Nat.log2]) (by simp [Nat.log2])
    · exact exactFloat64_of_num_den _ 50 1 (by norm_num) (by norm_num) (by decide) (by simp [Nat.log2]) (by simp [Nat.log2])
    · exact exactFloat64_of_num_den _ 25 1 (by norm_num) (by norm_num) (by decide) (by simp [Nat.log2]) (by simp [Nat.log2])
    · exact exactFloat64_of_num_den _ 0 1 (by norm_num) (by norm_num) (by decide) (by simp [Nat.log2]) (by simp [Nat.log2])

/-- C8, at 3 received (25 percent) and at none received (100 percent). -/
theorem lossPercent_exact_witness : lossPercent 3 = some 25 ∧ lossPercent 0 = some 100 := by
  constructor
  · rw [lossPercent_exact 3 (by decide) (by decide)]
    norm_num
  · rw [lossPercent_exact 0 (by decide) (by decide)]
    norm_num

/-! ## Minimum, maximum and sum -/

theorem foldl_statsStep_min (l : List Int) (a : Stats) :
    (l.foldl statsStep a).min ≤ a.min ∧ (∀ r ∈ l, (l.foldl statsStep a).min ≤ r) ∧
      ((l.foldl statsStep a).min = a.min ∨ (l.foldl statsStep a).min ∈ l) := by
  induction l generalizing a with
  | nil => simp
  | cons r t ih =>
    obtain ⟨h1, h2, h3⟩ := ih (statsStep a r)
    have hstep : (statsStep a r).min = if r < a.min then r else a.min := rfl
    rw [List.foldl_cons]
    refine ⟨?_, ?_, ?_⟩
    · rw [hstep] at h1
      split at h1 <;> omega
    · intro x hx
      rcases List.mem_cons.mp hx with hx | hx
      · subst hx
        rw [hstep] at h1
        split at h1 <;> omega
      · exact h2 x hx
    · rcases h3 with h3 | h3
      · rw [hstep] at h3
        split at h3
        · exact Or.inr (by rw [h3]; exact List.mem_cons_self _ _)
        · exact Or.inl h3
      · exact Or.inr (List.mem_cons_of_mem _ h3)

theorem foldl_statsStep_max (l : List Int) (a : Stats) :
    a.max ≤ (l.foldl statsStep a).max ∧ (∀ r ∈ l, r ≤ (l.foldl statsStep a).max) ∧
      ((l.foldl statsStep a).max = a.max ∨ (l.foldl statsStep a).max ∈ l) := by
  induction l generalizing a with
  | nil => simp
  | cons r t ih =>
    obtain ⟨h1, h2, h3⟩ := ih (statsStep a r)
    have hstep : (statsStep a r).max = if r > a.max then r else a.max := rfl
    rw [List.foldl_cons]
    refine ⟨?_, ?_, ?_⟩
    · rw [hstep] at h1
      split at h1 <;> omega
    · intro x hx
      rcases List.mem_cons.mp hx with hx | hx
      · subst hx
        rw [hstep] at h1
        split at h1 <;> omega
      · exact h2 x hx
    · rcases h3 with h3 | h3
      · rw [hstep] at h3
        split at h3
        · exact Or.inr (by rw [h3]; exact List.mem_cons_self _ _)
        · exact Or.inl h3
      · exact Or.inr (List.mem_cons_of_mem _ h3)

theorem wrapInt64_add_left (a b : Int) : wrapInt64 (wrapInt64 a + b) = wrapInt64 (a + b) := by
  unfold wrapInt64
  omega

theorem wrapInt64_of_range {x : Int} (h1 : -(2 ^ 63) ≤ x) (h2 : x < 2 ^ 63) :
    wrapInt64 x = x := by
  unfold wrapInt64
  omega

theorem wrapInt64_idem (a : Int) : wrapInt64 (wrapInt64 a) = wrapInt64 a := by
  unfold wrapInt64
  omega

theorem foldl_statsStep_sum (l : List Int) (a : Stats) (ha : wrapInt64 a.sum = a.sum) :
    (l.foldl statsStep a).sum = wrapInt64 (a.sum + l.sum) := by
  induction l generalizing a with
  | nil => simpa using ha.symm
  | cons r t ih =>
    have hstep : (statsStep a r).sum = wrapInt64 (a.sum + r) := rfl
    rw [List.foldl_cons, ih (statsStep a r) (by rw [hstep, wrapInt64_idem]), hstep,
      wrapInt64_add_left, List.sum_cons, add_assoc]

theorem computeStats_sum (rtts : List Int) : (computeStats rtts).sum = wrapInt64 rtts.sum := by
  cases rtts with
  | nil => rfl
  | cons r0 t =>
    have h := foldl_statsStep_sum (r0 :: t) { sum := 0, min := r0, max := r0 } rfl
    simpa [computeStats] using h

/-! ## Claims about the statistics -/

/-- C9: for every non-empty list of samples the computed `min` and `max` are
the extrema of the list: each is one of the samples, `min` is below or equal
to every sample and `max` is above or equal to every sample. -/
theorem computeStats_min_max (rtts : List Int) (hne : rtts ≠ []) :
    (computeStats rtts).min ∈ rtts ∧ (∀ r ∈ rtts, (computeStats rtts).min ≤ r) ∧
      (computeStats rtts).max ∈ rtts ∧ (∀ r ∈ rtts, r ≤ (computeStats rtts).max) := by
  cases rtts with
  | nil => exact absurd rfl hne
  | cons r0 t =>
    obtain ⟨_, hmin2, hmin3⟩ := foldl_statsStep_min (r0 :: t) { sum := 0, min := r0, max := r0 }
    obtain ⟨_, hmax2, hmax3⟩ := foldl_statsStep_max (r0 :: t) { sum := 0, min := r0, max := r0 }
    refine ⟨?_, hmin2, ?_, hmax2⟩
    · rcases hmin3 with h | h
      · show ((r0 :: t).foldl statsStep _).min ∈ r0 :: t
        rw [h]
        exact List.mem_cons_self _ _
      · exact h
    · rcases hmax3 with h | h
      · show ((r0 :: t).foldl statsStep _).max ∈ r0 :: t
        rw [h]
        exact List.mem_cons_self _ _
      · exact h

/-- C9, at the samples 10 ms, 20 ms, 30 ms: `min` is 10 ms and `max` is
30 ms. -/
theorem computeStats_min_max_witness :
    (computeStats [10000000, 20000000, 30000000]).min = 10000000 ∧
      (computeStats [10000000, 20000000, 30000000]).max = 30000000 ∧
      (computeStats [10000000, 20000000, 30000000]).min ∈
        ([10000000, 20000000, 30000000] : List Int) ∧
      (∀ r ∈ ([10000000, 20000000, 30000000] : List Int),
        (computeStats [10000000, 20000000, 30000000]).min ≤ r) ∧
      (computeStats [10000000, 20000000, 30000000]).max ∈
        ([10000000, 20000000, 30000000] : List Int) ∧
      (∀ r ∈ ([10000000, 20000000, 30000000] : List Int),
        r ≤ (computeStats [10000000, 20000000, 30000000]).max) :=
  ⟨by decide, by decide,
    computeStats_min_max [10000000, 20000000, 30000000] (by decide)⟩

/-- C10: for every non-empty list of samples whose sum fits in an `int64`,
the computed `avg` is the sum of the samples divided by their number,
truncated to whole nanoseconds: it differs from the exact mean by less than
one nanosecond, that is `avg * n` differs from the sum by less than `n`. -/
theorem computeAvg_mean (rtts : List Int) (hne : rtts ≠ [])
    (hlo : -(2 ^ 63) ≤ rtts.sum) (hhi : rtts.sum < 2 ^ 63) :
    computeAvg (computeStats rtts).sum rtts = Int.tdiv rtts.sum (rtts.length : Int) ∧
      |rtts.sum - computeAvg (computeStats rtts).sum rtts * (rtts.length : Int)| <
        (rtts.length : Int) := by
  have hpos : 0 < rtts.length := List.length_pos.mpr hne
  have hn : (0 : Int) < (rtts.length : Int) := by exact_mod_cast hpos
  have havg : computeAvg (computeStats rtts).sum rtts =
      Int.tdiv rtts.sum (rtts.length : Int) := by
    unfold computeAvg
    rw [if_pos hpos, computeStats_sum, wrapInt64_of_range hlo hhi]
  refine ⟨havg, ?_⟩
  rw [havg]
  have hdm := Int.tdiv_add_tmod rtts.sum (rtts.length : Int)
  have hlt := Int.tmod_lt_of_pos rtts.sum hn
  have hgt : -(rtts.length : Int) < Int.tmod rtts.sum (rtts.length : Int) := by
    rcases le_or_lt 0 rtts.sum with h | h
    · have := Int.tmod_nonneg (rtts.length : Int) h
      omega
    · have e1 := Int.tdiv_add_tmod (-rtts.sum) (rtts.length : Int)
      rw [Int.neg_tdiv] at e1
      have h2 := Int.tmod_lt_of_pos (-rtts.sum) hn
      linarith
  rw [abs_lt]
  constructor <;> nlinarith

/-- C10, at the samples 10 ms, 20 ms, 30 ms: `avg` is 20 ms. -/
theorem computeAvg_mean_witness :
    computeAvg (computeStats [10000000, 20000000, 30000000]).sum
        [10000000, 20000000, 30000000] = 20000000 ∧
      (computeAvg (computeStats [10000000, 20000000, 30000000]).sum
          [10000000, 20000000, 30000000] =
        Int.tdiv ([10000000, 20000000, 30000000] : List Int).sum
          (([10000000, 20000000, 30000000] : List Int).length : Int) ∧
      |([10000000, 20000000, 30000000] : List Int).sum -
          computeAvg (computeStats [10000000, 20000000, 30000000]).sum
            [10000000, 20000000, 30000000] *
          (([10000000, 20000000, 30000000] : List Int).length : Int)| <
        (([10000000, 20000000, 30000000] : List Int).length : Int)) :=
  ⟨by decide,
    computeAvg_mean [10000000, 20000000, 30000000] (by decide) (by decide) (by decide)⟩

/-! ## Further claims about `checksum` -/

theorem words_append_odd : ∀ (b : List Byte) (x : Byte), b.length % 2 = 0 →
    words (b ++ [x]) = words (b ++ [x, 0])
  | [], x, _ => by simp [words]
  | [_], _, h => by simp at h
  | a :: c :: rest, x, h => by
    have h2 : rest.length % 2 = 0 := by
      simp only [List.length_cons] at h
      omega
    have ih := words_append_odd rest x h2
    show words (a :: c :: (rest ++ [x])) = words (a :: c :: (rest ++ [x, 0]))
    simp only [words]
    rw [ih]

/-- C13: `checksum` of the empty byte buffer is `0xFFFF`. -/
theorem checksum_nil : checksum [] = 0xFFFF := by decide

/-- C14: for every even-length buffer `b` and every byte `x`, `checksum`
gives the same value on `b ++ [x]` and on `b ++ [x, 0x00]`: the last byte of
an odd-length input is the high byte of a zero-padded word. -/
theorem checksum_odd_padding (b : List Byte) (x : Byte) (h : b.length % 2 = 0) :
    checksum (b ++ [x]) = checksum (b ++ [x, 0x00]) := by
  apply Fin.ext
  rw [checksum_val, checksum_val, wordSum, wordSum, words_append_odd b x h]

/-- C14, at the single byte `0xFF`, whose checksum is `0x00FF`. -/
theorem checksum_odd_padding_witness :
    checksum [0xFF] = 0x00FF ∧ checksum ([] ++ [0xFF]) = checksum ([] ++ [0xFF, 0x00]) :=
  ⟨by decide, checksum_odd_padding [] 0xFF (by decide)⟩

/-! ## Verifying an embedded checksum -/

/-- The arithmetic behind receiver-side verification: adding the complement
of the folded sum to the sum makes it fold to `0xFFFF`. -/
theorem ocNorm_add_complement (w : Nat) :
    ocNorm (w + (65535 - ocNorm w)) = 65535 := by
  unfold ocNorm
  split <;> split <;> omega

theorem checksum_zero_of_wordSum (data zeroed : List Byte) (hz : zeroed.length ≤ 20)
    (hw : wordSum data = wordSum zeroed + (checksum zeroed).val) :
    (checksum data).val = 0 := by
  have hb := wordSum_le zeroed
  have h1 : wordSum zeroed ≤ 65535 * 10 := by
    have h2 : (zeroed.length + 1) / 2 ≤ 10 := by omega
    exact Nat.le_trans hb (Nat.mul_le_mul_left _ h2)
  have hc := checksum_val zeroed
  have hlt : wordSum zeroed < 2 ^ 32 := by omega
  rw [Nat.mod_eq_of_lt hlt] at hc
  have hn := ocNorm_lt (wordSum zeroed)
  rw [checksum_val, hw, hc, Nat.mod_eq_of_lt (by omega), ocNorm_add_complement]

theorem wordSum_encodeIP (ip : IPHeader) (c : U16) :
    wordSum (encodeIP { ip with Checksum := c }) =
      wordSum (encodeIP { ip with Checksum := 0 }) + c.val := by
  have hc := beUint16_putUint16 c
  have h0 : (toByte ((0 : U16).val >>> 8)).val * 256 + (toByte (0 : U16).val).val = 0 := by
    decide
  simp only [encodeIP_eq, wordSum, words, List.sum_cons, List.sum_nil]
  omega

theorem wordSum_encodeICMP (icmp : ICMPHeader) (c : U16) :
    wordSum (encodeICMP { icmp with Checksum := c }) =
      wordSum (encodeICMP { icmp with Checksum := 0 }) + c.val := by
  have hc := beUint16_putUint16 c
  have h0 : (toByte ((0 : U16).val >>> 8)).val * 256 + (toByte (0 : U16).val).val = 0 := by
    decide
  simp only [encodeICMP_eq, wordSum, words, List.sum_cons, List.sum_nil]
  omega

theorem length_encodeIP (ip : IPHeader) : (encodeIP ip).length = 20 := by
  rw [encodeIP_eq]
  rfl

theorem length_encodeICMP (icmp : ICMPHeader) : (encodeICMP icmp).length = 16 := by
  rw [encodeICMP_eq]
  rfl

/-- C19: for every IP header and ICMP header the packet `buildPacket`
returns passes receiver-side verification: `checksum` over its first 20
bytes and `checksum` over the bytes after them, embedded checksums left in
place, are both 0. -/
theorem buildPacket_verifies (ip : IPHeader) (icmp : ICMPHeader) :
    ∃ b, buildPacket ip icmp = .ok b ∧
      checksum (b.packet.take 20) = 0 ∧ checksum (b.packet.drop 20) = 0 := by
  refine ⟨_, buildPacket_eq ip icmp, ?_, ?_⟩
  · apply Fin.ext
    show (checksum (List.take 20 (encodeIP _ ++ encodeICMP _))).val = 0
    rw [List.take_left' (length_encodeIP _)]
    exact checksum_zero_of_wordSum _ (encodeIP { ip with Checksum := 0 })
      (by rw [length_encodeIP]) (wordSum_encodeIP ip _)
  · apply Fin.ext
    show (checksum (List.drop 20 (encodeIP _ ++ encodeICMP _))).val = 0
    rw [List.drop_left' (length_encodeIP _)]
    exact checksum_zero_of_wordSum _ (encodeICMP { icmp with Checksum := 0 })
      (by rw [length_encodeICMP]; decide) (wordSum_encodeICMP icmp _)

/-! ## The parser's reads on a built packet -/

/-- C18: the encoder and the reply parser agree on the field offsets: for
every IP header and ICMP header, the reads of the reply handling applied to
the packet `buildPacket` returns give the header's time to live (byte 8),
its sequence number (bytes 26-27) and, as the send instant, the big-endian
value of its eight data bytes, which are bytes 28-35 of the packet. -/
theorem parser_recovers_fields (ip : IPHeader) (icmp : ICMPHeader) (now : Int)
    (c : Counters) (src : Fin 4 → Byte) :
    ∃ b ipHeader icmpHeader, buildPacket ip icmp = .ok b ∧
      (Slice.ofBuffer b.packet).slice 0 20 = some ipHeader ∧
      (Slice.ofBuffer b.packet).slice 20 36 = some icmpHeader ∧
      acceptReply now c 36 src ipHeader icmpHeader =
        some
          ({ receivedPackets := c.receivedPackets + 1,
             rtts := c.rtts ++ [timeSince now (toInt64 (beUint64 (List.ofFn icmp.Data) 0))] },
            [Line.reply 16 src icmp.SequenceNumber.val ip.TimeToLive.val
              (timeSince now (toInt64 (beUint64 (List.ofFn icmp.Data) 0)))]) ∧
      ∀ i : Fin 8, byteAt b.packet (28 + i.val) = (icmp.Data i).val := by
  have hlen : (encodeIP { ip with Checksum := checksum (encodeIP { ip with Checksum := 0 }) } ++
      encodeICMP
        { icmp with Checksum := checksum (encodeICMP { icmp with Checksum := 0 }) }).length =
      36 := by
    rw [List.length_append, length_encodeIP, length_encodeICMP]
  have hs0 := slice_ofBuffer
    (encodeIP { ip with Checksum := checksum (encodeIP { ip with Checksum := 0 }) } ++
      encodeICMP { icmp with Checksum := checksum (encodeICMP { icmp with Checksum := 0 }) })
    0 20 (by omega) (by omega)
  have hs1 := slice_ofBuffer
    (encodeIP { ip with Checksum := checksum (encodeIP { ip with Checksum := 0 }) } ++
      encodeICMP { icmp with Checksum := checksum (encodeICMP { icmp with Checksum := 0 }) })
    20 36 (by omega) (by omega)
  simp only [Nat.cast_ofNat, Nat.cast_zero] at hs0 hs1
  refine ⟨_, _, _, buildPacket_eq ip icmp, hs0, hs1, ?_, ?_⟩
  · rw [acceptReply_eq now c 36 src _ (36 - 20) (by omega)]
    have hseq : beUint16
        (encodeIP { ip with Checksum := checksum (encodeIP { ip with Checksum := 0 }) } ++
          encodeICMP
            { icmp with Checksum := checksum (encodeICMP { icmp with Checksum := 0 }) }) 26 =
        icmp.SequenceNumber.val := by
      simp only [encodeIP_eq, encodeICMP_eq, beUint16_eq, byteAt]
      exact beUint16_putUint16 _
    have httl : byteAt
        (encodeIP { ip with Checksum := checksum (encodeIP { ip with Checksum := 0 }) } ++
          encodeICMP
            { icmp with Checksum := checksum (encodeICMP { icmp with Checksum := 0 }) }) 8 =
        ip.TimeToLive.val := by
      simp only [encodeIP_eq, encodeICMP_eq, byteAt]
      rfl
    have ht : beUint64
        (encodeIP { ip with Checksum := checksum (encodeIP { ip with Checksum := 0 }) } ++
          encodeICMP
            { icmp with Checksum := checksum (encodeICMP { icmp with Checksum := 0 }) }) 28 =
        beUint64 (List.ofFn icmp.Data) 0 := by
      simp only [encodeIP_eq, encodeICMP_eq, beUint64, byteAt, List.ofFn_succ, List.ofFn_zero]
      rfl
    rw [hseq, httl, ht]
    rfl
  · intro i
    simp only [encodeIP_eq, encodeICMP_eq, byteAt]
    fin_cases i <;> rfl

/-! ## Reads past the received length -/

/-- C20: for every received length `n` with `28 <= n <= 1024` and every
content of the 1024-byte buffer with type and code 0/0, the reply handling
runs without an out-of-range access, accepts the reply, and takes the send
instant of its sample from buffer bytes 28-35 whatever `n` is, so also when
`n < 36` and those bytes lie past the received data. -/
theorem handleRecv_reads_bytes_28_35 (now : Int) (c : Counters) (n : Int)
    (buf : List Byte) (src : Fin 4 → Byte) (hlen : buf.length = 1024) (h28 : 28 ≤ n)
    (hn : n ≤ 1024) (hty : byteAt buf 20 = 0) (hcode : byteAt buf 21 = 0) :
    handleRecv now c (.data n buf src) =
      some
        ({ receivedPackets := c.receivedPackets + 1,
           rtts := c.rtts ++ [timeSince now (toInt64 (beUint64 buf 28))] },
          [Line.reply (n - 20) src (beUint16 buf 26) (byteAt buf 8)
            (timeSince now (toInt64 (beUint64 buf 28)))]) := by
  obtain ⟨m, rfl⟩ := Int.eq_ofNat_of_zero_le (by omega : 0 ≤ n)
  have h0 : buf.getD 20 0 = 0 := Fin.ext hty
  have h1 : buf.getD 21 0 = 0 := Fin.ext hcode
  rw [handleRecv_data now c m src buf (by omega) (by omega) (by omega), if_pos ⟨h0, h1⟩]

set_option maxRecDepth 100000 in
/-- C20, at `sampleReply` cut to 28 received bytes: the sample is still
taken from the instant 1000 held in bytes 28-35. -/
theorem handleRecv_reads_bytes_28_35_witness :
    beUint64 sampleReply 28 = 1000 ∧
      handleRecv 6000 { receivedPackets := 0, rtts := [] }
          (.data 28 sampleReply ![8, 8, 8, 8]) =
        some
          ({ receivedPackets := 0 + 1,
             rtts := [] ++ [timeSince 6000 (toInt64 (beUint64 sampleReply 28))] },
            [Line.reply (28 - 20) ![8, 8, 8, 8] (beUint16 sampleReply 26)
              (byteAt sampleReply 8) (timeSince 6000 (toInt64 (beUint64 sampleReply 28)))]) :=
  ⟨by decide,
    handleRecv_reads_bytes_28_35 6000 { receivedPackets := 0, rtts := [] } 28 sampleReply
      ![8, 8, 8, 8] (by decide) (by decide) (by decide) (by decide) (by decide)⟩

/-! ## One probe, whatever the outside world does -/

theorem handleRecv_wellFormed (now : Int) (c : Counters) (r : RecvResult)
    (hwf : r.WellFormed) :
    ∃ c' lines, handleRecv now c r = some (c', lines) ∧
      (c' = c ∨ ∃ e, c' = { receivedPackets := c.receivedPackets + 1, rtts := c.rtts ++ [e] }) := by
  cases r with
  | error => exact ⟨c, [Line.timedOut], rfl, Or.inl rfl⟩
  | data n buf src =>
    obtain ⟨hlen, h0, hn⟩ := hwf
    by_cases h28 : n < 28
    · refine ⟨c, [], ?_, Or.inl rfl⟩
      simp only [handleRecv]
      rw [if_neg (by omega)]
    · obtain ⟨m, rfl⟩ := Int.eq_ofNat_of_zero_le h0
      rw [handleRecv_data now c m src buf (by omega) (by omega) (by omega)]
      split
      · exact ⟨_, _, rfl, Or.inr ⟨_, rfl⟩⟩
      · exact ⟨c, [], rfl, Or.inl rfl⟩

theorem sentPackets_append (l1 l2 : List Action) :
    sentPackets (l1 ++ l2) = sentPackets l1 ++ sentPackets l2 := by
  induction l1 with
  | nil => rfl
  | cons a t ih =>
    cases a <;> simp [sentPackets, ih]

theorem sentPackets_prints (lines : List Line) : sentPackets (lines.map Action.print) = [] := by
  induction lines with
  | nil => rfl
  | cons a t ih => simpa [sentPackets] using ih

/-- What one iteration does on a well-formed receive result: it returns, it
sends exactly one packet, carrying the incremented sequence number and the
unchanged identifier, and it either leaves the counters or adds one reply
and one sample. -/
theorem probe_wellFormed (env : ProbeEnv) (s : Session) (hwf : env.recv.WellFormed) :
    ∃ s' pkt, probe env s = some s' ∧
      s'.icmp.SequenceNumber = toU16 (s.icmp.SequenceNumber.val + 1) ∧
      s'.icmp.Identifier = s.icmp.Identifier ∧
      sentPackets s'.trace = sentPackets s.trace ++ [pkt] ∧
      beUint16 pkt 26 = (s.icmp.SequenceNumber.val + 1) % 65536 ∧
      beUint16 pkt 24 = s.icmp.Identifier.val ∧
      (s'.counters = s.counters ∨
        ∃ e, s'.counters =
          { receivedPackets := s.counters.receivedPackets + 1,
            rtts := s.counters.rtts ++ [e] }) := by
  obtain ⟨b, hb⟩ : ∃ b, buildPacket s.ip
      { s.icmp with
        SequenceNumber := toU16 (s.icmp.SequenceNumber.val + 1)
        Data := putUint64 (toUint64 env.sendTime) } = .ok b := ⟨_, buildPacket_eq _ _⟩
  have hb' := hb
  rw [buildPacket_eq] at hb'
  have hbe : b = _ := (Except.ok.inj hb').symm
  have hseq : beUint16 b.packet 26 = (s.icmp.SequenceNumber.val + 1) % 65536 := by
    rw [hbe]
    simp only [encodeIP_eq, encodeICMP_eq, beUint16_eq, byteAt]
    exact beUint16_putUint16 (toU16 (s.icmp.SequenceNumber.val + 1))
  have hid : beUint16 b.packet 24 = s.icmp.Identifier.val := by
    rw [hbe]
    simp only [encodeIP_eq, encodeICMP_eq, beUint16_eq, byteAt]
    exact beUint16_putUint16 s.icmp.Identifier
  have hicmp1 : b.icmp.SequenceNumber = toU16 (s.icmp.SequenceNumber.val + 1) := by
    rw [hbe]
  have hicmp2 : b.icmp.Identifier = s.icmp.Identifier := by
    rw [hbe]
  by_cases hsend : env.sendOk = false
  · refine ⟨{ ip := b.ip, icmp := b.icmp, counters := s.counters,
              trace := s.trace ++ [Action.send b.packet false, Action.print Line.sendError] },
      b.packet, ?_, hicmp1, hicmp2, ?_, hseq, hid, Or.inl rfl⟩
    · unfold probe
      simp only [hb, hsend, if_true]
    · rw [sentPackets_append]
      rfl
  · obtain ⟨c', lines, hr, hc⟩ := handleRecv_wellFormed env.recvTime s.counters env.recv hwf
    refine ⟨{ ip := b.ip, icmp := b.icmp, counters := c',
              trace := s.trace ++ [Action.send b.packet true, Action.recv] ++
                lines.map Action.print ++ [Action.sleep] },
      b.packet, ?_, hicmp1, hicmp2, ?_, hseq, hid, hc⟩
    · unfold probe
      simp only [hb, hsend, if_false, hr]
      simp
    · rw [sentPackets_append, sentPackets_append, sentPackets_append, sentPackets_prints]
      simp [sentPackets]

/-! ## The probe loop -/

/-- The loop started at iteration `i` with the matching bound returns; the
packets it sends carry consecutive sequence numbers and the session's
identifier. -/
theorem probeLoop_sent (env : Nat → ProbeEnv)
    (hwf : ∀ i, i < 4 → (env i).recv.WellFormed) :
    ∀ (fuel i : Nat) (s : Session), i + fuel = 4 →
      ∃ s', probeLoop env fuel i s = some s' ∧
        (sentPackets s'.trace).map (fun p => (beUint16 p 26, beUint16 p 24)) =
          (sentPackets s.trace).map (fun p => (beUint16 p 26, beUint16 p 24)) ++
            (List.range fuel).map
              (fun k => ((s.icmp.SequenceNumber.val + 1 + k) % 65536, s.icmp.Identifier.val)) := by
  intro fuel
  induction fuel with
  | zero =>
    intro i s _
    exact ⟨s, rfl, by simp⟩
  | succ f ih =>
    intro i s hi
    have hlt : i < 4 := by omega
    obtain ⟨s1, pkt, hp, hseq, hid, hsent, h26, h24, _⟩ := probe_wellFormed (env i) s (hwf i hlt)
    obtain ⟨s2, hl, hmap⟩ := ih (i + 1) s1 (by omega)
    refine ⟨s2, ?_, ?_⟩
    · show (if i < 4 then (probe (env i) s).bind (probeLoop env f (i + 1)) else some s) = some s2
      rw [if_pos hlt, hp]
      exact hl
    · rw [hmap, hsent, List.map_append, List.map_cons, List.map_nil, h26, h24, hid, hseq,
        List.range_succ_eq_map, List.map_cons, List.map_map, List.append_assoc]
      have hfun : ((fun k => ((s.icmp.SequenceNumber.val + 1 + k) % 65536,
            s.icmp.Identifier.val)) ∘ Nat.succ) =
          (fun k => (((toU16 (s.icmp.SequenceNumber.val + 1)).val + 1 + k) % 65536,
            s.icmp.Identifier.val)) := by
        funext k
        simp only [Function.comp, toU16, Prod.mk.injEq, and_true]
        omega
      rw [hfun]
      rfl

/-- The loop returns, and it adds as many samples as it counts replies, at
most one per iteration. -/
theorem probeLoop_counters (env : Nat → ProbeEnv)
    (hwf : ∀ i, i < 4 → (env i).recv.WellFormed) :
    ∀ (fuel i : Nat) (s : Session), i + fuel = 4 →
      ∃ s' k, probeLoop env fuel i s = some s' ∧ k ≤ fuel ∧
        s'.counters.receivedPackets = s.counters.receivedPackets + (k : Int) ∧
        s'.counters.rtts.length = s.counters.rtts.length + k := by
  intro fuel
  induction fuel with
  | zero =>
    intro i s _
    exact ⟨s, 0, rfl, Nat.le_refl 0, by simp, rfl⟩
  | succ f ih =>
    intro i s hi
    have hlt : i < 4 := by omega
    obtain ⟨s1, pkt, hp, _, _, _, _, _, hc⟩ := probe_wellFormed (env i) s (hwf i hlt)
    obtain ⟨s2, k, hl, hk, hrp, hlen⟩ := ih (i + 1) s1 (by omega)
    have hrun : probeLoop env (f + 1) i s = some s2 := by
      show (if i < 4 then (probe (env i) s).bind (probeLoop env f (i + 1)) else some s) = some s2
      rw [if_pos hlt, hp]
      exact hl
    rcases hc with hc | ⟨e, hc⟩
    · refine ⟨s2, k, hrun, by omega, ?_, ?_⟩
      · rw [hrp, hc]
      · rw [hlen, hc]
    · refine ⟨s2, k + 1, hrun, by omega, ?_, ?_⟩
      · rw [hrp, hc]
        push_cast
        ring
      · rw [hlen, hc]
        simp only [List.length_append, List.length_singleton]
        omega

/-! ## Claims about the probe loop -/

/-- C15: whatever the send and receive primitives do on each probe, the
loop sends four packets, the k-th carrying sequence number `k` at bytes
26-27, and all carrying at bytes 24-25 the identifier fixed before the
loop. -/
theorem runProbes_sequence_numbers (env : Nat → ProbeEnv) (sourceIP destIP : Fin 4 → Byte)
    (pid : Nat) (hwf : ∀ i, i < 4 → (env i).recv.WellFormed) :
    ∃ s', runProbes env (initSession sourceIP destIP pid) = some s' ∧
      (sentPackets s'.trace).map (fun p => (beUint16 p 26, beUint16 p 24)) =
        [(1, (initSession sourceIP destIP pid).icmp.Identifier.val),
          (2, (initSession sourceIP destIP pid).icmp.Identifier.val),
          (3, (initSession sourceIP destIP pid).icmp.Identifier.val),
          (4, (initSession sourceIP destIP pid).icmp.Identifier.val)] := by
  obtain ⟨s', hrun, hmap⟩ := probeLoop_sent env hwf 4 0 (initSession sourceIP destIP pid) rfl
  refine ⟨s', hrun, ?_⟩
  rw [hmap]
  rfl

/-- C16: whatever the send and receive primitives do on each probe, at the
end of the loop the number of recorded samples equals the received-packet
count and is at most 4. -/
theorem runProbes_samples_match_count (env : Nat → ProbeEnv)
    (sourceIP destIP : Fin 4 → Byte) (pid : Nat)
    (hwf : ∀ i, i < 4 → (env i).recv.WellFormed) :
    ∃ s', runProbes env (initSession sourceIP destIP pid) = some s' ∧
      (s'.counters.rtts.length : Int) = s'.counters.receivedPackets ∧
      s'.counters.rtts.length ≤ 4 := by
  obtain ⟨s', k, hrun, hk, hrp, hlen⟩ :=
    probeLoop_counters env hwf 4 0 (initSession sourceIP destIP pid) rfl
  refine ⟨s', hrun, ?_, ?_⟩
  · rw [hrp, hlen]
    simp [initSession]
  · rw [hlen]
    simp only [initSession, List.length_nil]
    omega

set_option maxRecDepth 100000 in
/-- C15, at the run in which probes 1, 2 and 4 are answered and probe 3
times out, for process 4660 (`0x1234`). -/
theorem runProbes_sequence_numbers_witness :
    (initSession ![10, 0, 0, 1] ![8, 8, 8, 8] 4660).icmp.Identifier.val = 0x1234 ∧
      ∃ s', runProbes threeOfFourEnv (initSession ![10, 0, 0, 1] ![8, 8, 8, 8] 4660) = some s' ∧
        (sentPackets s'.trace).map (fun p => (beUint16 p 26, beUint16 p 24)) =
          [(1, (initSession ![10, 0, 0, 1] ![8, 8, 8, 8] 4660).icmp.Identifier.val),
            (2, (initSession ![10, 0, 0, 1] ![8, 8, 8, 8] 4660).icmp.Identifier.val),
            (3, (initSession ![10, 0, 0, 1] ![8, 8, 8, 8] 4660).icmp.Identifier.val),
            (4, (initSession ![10, 0, 0, 1] ![8, 8, 8, 8] 4660).icmp.Identifier.val)] :=
  ⟨by decide,
    runProbes_sequence_numbers threeOfFourEnv ![10, 0, 0, 1] ![8, 8, 8, 8] 4660 (by decide)⟩

set_option maxRecDepth 100000 in
/-- C16, at the run in which probes 1, 2 and 4 are answered after 5 ms,
7 ms and 6 ms and probe 3 times out: three replies, three samples. -/
theorem runProbes_samples_match_count_witness :
    (runProbes threeOfFourEnv (initSession ![10, 0, 0, 1] ![8, 8, 8, 8] 4660)).map
        (fun s => (s.counters.receivedPackets, s.counters.rtts)) =
        some (3, [5000000, 7000000, 6000000]) ∧
      ∃ s', runProbes threeOfFourEnv (initSession ![10, 0, 0, 1] ![8, 8, 8, 8] 4660) = some s' ∧
        (s'.counters.rtts.length : Int) = s'.counters.receivedPackets ∧
        s'.counters.rtts.length ≤ 4 :=
  ⟨by decide,
    runProbes_samples_match_count threeOfFourEnv ![10, 0, 0, 1] ![8, 8, 8, 8] 4660
      (by decide)⟩

set_option maxRecDepth 100000 in
/-- C17 (the code at a failed send): when the first `Sendto` fails and the
other three probes time out, the loop prints the error and sends the second
probe at once; no sleep stands between the failed send and the next send,
while each of the other probes ends with the sleep. -/
theorem runProbes_failed_send_skips_sleep :
    (runProbes firstSendFailsEnv (initSession ![10, 0, 0, 1] ![8, 8, 8, 8] 4660)).map
        (fun s => s.trace.map Action.kind) =
      some
        [ActionKind.sendFailed, ActionKind.print,
          ActionKind.sendOk, ActionKind.recv, ActionKind.print, ActionKind.sleep,
          ActionKind.sendOk, ActionKind.recv, ActionKind.print, ActionKind.sleep,
          ActionKind.sendOk, ActionKind.recv, ActionKind.print, ActionKind.sleep] := by
  decide

/-! ## The summary of a run without replies -/

theorem lossPercent_zero : lossPercent 0 = some 100 := by
  have h := lossPercent_of_exact 0
    (exactFloat64_of_num_den _ 4 1 (by norm_num) (by norm_num) (by decide)
      (by simp [Nat.log2]) (by simp [Nat.log2]))
    (exactFloat64_of_num_den _ 1 1 (by norm_num) (by norm_num) (by decide)
      (by simp [Nat.log2]) (by simp [Nat.log2]))
    (exactFloat64_of_num_den _ 100 1 (by norm_num) (by norm_num) (by decide)
      (by simp [Nat.log2]) (by simp [Nat.log2]))
  rw [h]
  norm_num

/-- The guard `len(rtts) > 0` keeps the integer division away from a zero
divisor: the division never panics, and its value is `computeAvg`. -/
theorem checkedAvg_eq (sum : Int) (rtts : List Int)
    (hlo : -(2 ^ 63) ≤ sum) (hhi : sum < 2 ^ 63) :
    checkedAvg sum rtts = some (computeAvg sum rtts) := by
  unfold checkedAvg computeAvg int64Div
  by_cases h : rtts.length > 0
  · have hn : (rtts.length : Int) ≠ 0 := by omega
    have hpos : (0 : Int) < (rtts.length : Int) := by omega
    rw [if_pos h, if_pos h, if_neg hn]
    have hdm := Int.tdiv_add_tmod sum (rtts.length : Int)
    have hlt := Int.tmod_lt_of_pos sum hpos
    have hq : -(2 ^ 63) ≤ Int.tdiv sum (rtts.length : Int) ∧
        Int.tdiv sum (rtts.length : Int) < 2 ^ 63 := by
      rcases le_or_lt 0 sum with hs | hs
      · have h0 := Int.tmod_nonneg (rtts.length : Int) hs
        constructor <;> nlinarith
      · have e1 := Int.tdiv_add_tmod (-sum) (rtts.length : Int)
        rw [Int.neg_tdiv] at e1
        have h2 := Int.tmod_lt_of_pos (-sum) hpos
        have h3 := Int.tmod_nonneg (rtts.length : Int) (by omega : (0 : Int) ≤ -sum)
        constructor <;> nlinarith
    rw [wrapInt64_of_range hq.1 hq.2]
  · rw [if_neg h, if_neg h]

/-- C12: when no reply was received (count 0, no samples) the statistics
block runs through without a division by zero and gives loss 100 percent
and `sum`, `min`, `avg`, `max`, `mdev` all zero. -/
theorem summarize_empty :
    summarize { receivedPackets := 0, rtts := [] } =
      some { received := 0, loss := 100, sum := 0, min := 0, avg := 0, max := 0, mdev := 0 } := by
  have hl := lossPercent_zero
  have ha : checkedAvg (computeStats []).sum [] = some 0 := rfl
  have hm : computeMdev [] 0 = some 0 := rfl
  simp only [summarize, ha, hm, hl, Option.bind_eq_bind, Option.some_bind]
  rfl

/-! ## Rounding to `float64` -/

theorem roundHalfEven_intCast (j : Int) : roundHalfEven (j : ℚ) = j := by
  unfold roundHalfEven
  simp

theorem roundHalfEven_bounds (t : ℚ) :
    ⌊t⌋ ≤ roundHalfEven t ∧ (roundHalfEven t : ℚ) ≤ t + 1 / 2 ∧
      t - 1 / 2 ≤ (roundHalfEven t : ℚ) := by
  have h1 := Int.floor_le t
  have h2 := Int.lt_floor_add_one t
  unfold roundHalfEven
  split_ifs with ha hb hc
  · refine ⟨le_refl _, by linarith, by linarith⟩
  · refine ⟨by omega, ?_, ?_⟩ <;> push_cast <;> linarith
  · refine ⟨le_refl _, by linarith, by linarith⟩
  · refine ⟨by omega, ?_, ?_⟩ <;> push_cast <;> linarith

theorem roundHalfEven_eq (t : ℚ) (m : Int) (h : |t - m| < 1 / 2) : roundHalfEven t = m := by
  obtain ⟨_, h2, h3⟩ := roundHalfEven_bounds t
  rw [abs_lt] at h
  have h4 : ((roundHalfEven t : Int) : ℚ) < (m : ℚ) + 1 := by linarith [h.1, h.2]
  have h5 : (m : ℚ) - 1 < ((roundHalfEven t : Int) : ℚ) := by linarith [h.1, h.2]
  have h6 : roundHalfEven t < m + 1 := by exact_mod_cast h4
  have h7 : m - 1 < roundHalfEven t := by exact_mod_cast h5
  omega

theorem log_two_eq (q : ℚ) (L : Int) (hq : 0 < q) (h1 : (2 : ℚ) ^ L ≤ q)
    (h2 : q < (2 : ℚ) ^ (L + 1)) : Int.log 2 q = L := by
  have hb : 1 < (2 : ℕ) := by decide
  have ha : L ≤ Int.log 2 q := by
    rw [← Int.zpow_le_iff_le_log hb hq]
    exact_mod_cast h1
  have hc : Int.log 2 q < L + 1 := by
    rw [← Int.lt_zpow_iff_log_lt hb hq]
    exact_mod_cast h2
  omega


theorem log_two_le_of_lt (q : ℚ) (B : Int) (hB : 0 ≤ B) (h : |q| < (2 : ℚ) ^ (B + 1)) :
    Int.log 2 |q| ≤ B := by
  rcases eq_or_lt_of_le (abs_nonneg q) with h0 | h0
  · rw [← h0, Int.log_zero_right]
    exact hB
  · have hb : 1 < (2 : ℕ) := by decide
    have hc : Int.log 2 |q| < B + 1 := by
      rw [← Int.lt_zpow_iff_log_lt hb h0]
      exact_mod_cast h
    omega

theorem ulpExp_int (j : Int) (h : |(j : ℚ)| < 2 ^ 53) :
    ulpExp (j : ℚ) ≤ 0 ∧ -1074 ≤ ulpExp (j : ℚ) := by
  have hl := log_two_le_of_lt (j : ℚ) 52 (by decide) (by norm_num; exact h)
  unfold ulpExp
  constructor
  · exact max_le (by omega) (by decide)
  · exact le_max_right _ _

/-- Rounding a value that lies on the grid of spacing `2^e` leaves it as it is. -/
theorem roundHalfEven_grid (j : Int) (e : Int) (he : e ≤ 0) :
    (roundHalfEven ((j : ℚ) / 2 ^ e) : ℚ) * 2 ^ e = (j : ℚ) := by
  obtain ⟨p, hp⟩ : ∃ p : ℕ, e = -(p : Int) := ⟨(-e).toNat, by omega⟩
  subst hp
  have h2 : (2 : ℚ) ^ (-(p : Int)) = ((2 : ℚ) ^ p)⁻¹ := by
    rw [zpow_neg, zpow_natCast]
  have hpos : (0 : ℚ) < (2 : ℚ) ^ p := by positivity
  have h3 : (j : ℚ) / ((2 : ℚ) ^ p)⁻¹ = ((j * 2 ^ p : Int) : ℚ) := by
    push_cast
    field_simp
  rw [h2, h3, roundHalfEven_intCast]
  push_cast
  field_simp

theorem roundFloat64_int (j : Int) (h : |(j : ℚ)| < 2 ^ 53) :
    roundFloat64 (j : ℚ) = some (j : ℚ) := by
  obtain ⟨he, _⟩ := ulpExp_int j h
  unfold roundFloat64
  simp only [roundHalfEven_grid j _ he]
  have hlt : |(j : ℚ)| < 2 ^ 1024 := lt_trans h (by norm_num)
  rw [if_pos hlt]


/-! ## The sum of squared deviations while it stays exact -/

theorem sqDev_nonneg (l : List Int) (avg : Int) : 0 ≤ sqDev l avg := by
  unfold sqDev
  apply List.sum_nonneg
  intro x hx
  obtain ⟨r, _, rfl⟩ := List.mem_map.mp hx
  positivity

theorem sqDev_cons (r : Int) (t : List Int) (avg : Int) :
    sqDev (r :: t) avg = (r - avg) ^ 2 + sqDev t avg := by
  simp [sqDev]

theorem sqDiffStep_exact (avg A r : Int) (hA : 0 ≤ A) (h : A + (r - avg) ^ 2 < 2 ^ 53) :
    sqDiffStep avg (A : ℚ) r = some ((A + (r - avg) ^ 2 : Int) : ℚ) := by
  have hsq : 0 ≤ (r - avg) ^ 2 := by positivity
  have h1 := Int.le_self_sq (r - avg)
  have h2 := Int.le_self_sq (-(r - avg))
  rw [neg_sq] at h2
  have hw : wrapInt64 (r - avg) = r - avg := wrapInt64_of_range (by omega) (by omega)
  have hd : |((r - avg : Int) : ℚ)| < 2 ^ 53 := by
    rw [abs_lt]
    constructor
    · have : (-(2 ^ 53) : Int) < r - avg := by omega
      exact_mod_cast this
    · have : r - avg < (2 ^ 53 : Int) := by omega
      exact_mod_cast this
  have hdd : |(((r - avg) ^ 2 : Int) : ℚ)| < 2 ^ 53 := by
    rw [abs_of_nonneg (by exact_mod_cast hsq)]
    have : (r - avg) ^ 2 < (2 ^ 53 : Int) := by omega
    exact_mod_cast this
  have hs : |((A + (r - avg) ^ 2 : Int) : ℚ)| < 2 ^ 53 := by
    rw [abs_of_nonneg (by exact_mod_cast (by omega : (0 : Int) ≤ A + (r - avg) ^ 2))]
    exact_mod_cast h
  have e1 : roundedOfInt (wrapInt64 (r - avg)) = some ((r - avg : Int) : ℚ) := by
    rw [hw]
    exact roundFloat64_int _ hd
  have e2 : roundedMul ((r - avg : Int) : ℚ) ((r - avg : Int) : ℚ) =
      some (((r - avg) ^ 2 : Int) : ℚ) := by
    unfold roundedMul
    have : ((r - avg : Int) : ℚ) * ((r - avg : Int) : ℚ) = (((r - avg) ^ 2 : Int) : ℚ) := by
      push_cast
      ring
    rw [this]
    exact roundFloat64_int _ hdd
  have e3 : roundedAdd (A : ℚ) (((r - avg) ^ 2 : Int) : ℚ) =
      some ((A + (r - avg) ^ 2 : Int) : ℚ) := by
    unfold roundedAdd
    have : (A : ℚ) + (((r - avg) ^ 2 : Int) : ℚ) = ((A + (r - avg) ^ 2 : Int) : ℚ) := by
      push_cast
      ring
    rw [this]
    exact roundFloat64_int _ hs
  unfold sqDiffStep
  rw [e1]
  simp only [Option.bind_eq_bind, Option.some_bind]
  rw [e2]
  simp only [Option.some_bind]
  exact e3

theorem foldlM_sqDiffStep_exact (avg : Int) (l : List Int) :
    ∀ A : Int, 0 ≤ A → A + sqDev l avg < 2 ^ 53 →
      l.foldlM (sqDiffStep avg) (A : ℚ) = some ((A + sqDev l avg : Int) : ℚ) := by
  induction l with
  | nil =>
    intro A _ _
    simp [sqDev]
  | cons r t ih =>
    intro A hA h
    rw [sqDev_cons] at h
    have hn := sqDev_nonneg t avg
    have hsq : 0 ≤ (r - avg) ^ 2 := by positivity
    rw [List.foldlM_cons, sqDiffStep_exact avg A r hA (by omega)]
    simp only [Option.bind_eq_bind, Option.some_bind]
    rw [ih (A + (r - avg) ^ 2) (by omega) (by omega), sqDev_cons]
    congr 2
    ring


/-! ## The quotient and the square root -/

/-- The rounded value of a positive rational in the normal range: it is a
multiple of the spacing `2^e`, within half a spacing of `q`, and the
spacing is at most `q / 2^52`. -/
theorem roundFloat64_pos (q : ℚ) (hq : 0 < q) (hlo : (2 : ℚ) ^ (-1022 : Int) ≤ q)
    (hhi : q < 2 ^ 1023) :
    ∃ (e : Int) (m : Int), roundFloat64 q = some ((m : ℚ) * 2 ^ e) ∧
      e = Int.log 2 q - 52 ∧ (2 : ℚ) ^ e ≤ q / 2 ^ 52 ∧ ⌊q / 2 ^ e⌋ ≤ m ∧
      (m : ℚ) * 2 ^ e ≤ q + 2 ^ e / 2 ∧ q - 2 ^ e / 2 ≤ (m : ℚ) * 2 ^ e := by
  have hb : 1 < (2 : ℕ) := by decide
  have hL1 : ((2 : ℕ) : ℚ) ^ Int.log 2 q ≤ q := Int.zpow_log_le_self hb hq
  have hL0 : (-1022 : Int) ≤ Int.log 2 q := by
    rw [← Int.zpow_le_iff_le_log hb hq]
    exact_mod_cast hlo
  have he : ulpExp q = Int.log 2 q - 52 := by
    unfold ulpExp
    rw [abs_of_pos hq]
    exact max_eq_left (by omega)
  have hu : (0 : ℚ) < (2 : ℚ) ^ ulpExp q := by positivity
  have hule : (2 : ℚ) ^ ulpExp q ≤ q / 2 ^ 52 := by
    rw [he, zpow_sub₀ (by norm_num : (2 : ℚ) ≠ 0)]
    have : (2 : ℚ) ^ Int.log 2 q ≤ q := by exact_mod_cast hL1
    have h52 : (2 : ℚ) ^ (52 : Int) = 2 ^ 52 := by norm_num
    rw [h52]
    exact div_le_div_of_nonneg_right this (by positivity)
  obtain ⟨hf, hup, hdn⟩ := roundHalfEven_bounds (q / 2 ^ ulpExp q)
  have hup' : (roundHalfEven (q / 2 ^ ulpExp q) : ℚ) * 2 ^ ulpExp q ≤ q + 2 ^ ulpExp q / 2 := by
    have := mul_le_mul_of_nonneg_right hup hu.le
    have e1 : (q / 2 ^ ulpExp q + 1 / 2) * 2 ^ ulpExp q = q + 2 ^ ulpExp q / 2 := by
      field_simp
      ring
    linarith
  have hdn' : q - 2 ^ ulpExp q / 2 ≤ (roundHalfEven (q / 2 ^ ulpExp q) : ℚ) * 2 ^ ulpExp q := by
    have := mul_le_mul_of_nonneg_right hdn hu.le
    have e1 : (q / 2 ^ ulpExp q - 1 / 2) * 2 ^ ulpExp q = q - 2 ^ ulpExp q / 2 := by
      field_simp
      ring
    linarith
  refine ⟨ulpExp q, roundHalfEven (q / 2 ^ ulpExp q), ?_, he, hule, hf, hup', hdn'⟩
  unfold roundFloat64
  have hnn : 0 ≤ (roundHalfEven (q / 2 ^ ulpExp q) : ℚ) * 2 ^ ulpExp q := by
    have : (0 : ℚ) ≤ q - 2 ^ ulpExp q / 2 := by
      have : (2 : ℚ) ^ ulpExp q ≤ q := le_trans hule (div_le_self hq.le (by norm_num))
      linarith
    linarith
  have hlt : |(roundHalfEven (q / 2 ^ ulpExp q) : ℚ) * 2 ^ ulpExp q| < 2 ^ 1024 := by
    rw [abs_of_nonneg hnn]
    have : (2 : ℚ) ^ ulpExp q ≤ q := le_trans hule (div_le_self hq.le (by norm_num))
    have h2 : (2 : ℚ) ^ 1024 = 2 * 2 ^ 1023 := by norm_num
    linarith
  simp only [hlt, if_true]


/-- An integer is a multiple of every spacing `2^e` with `e <= 0`. -/
theorem grid_of_nonpos (j : ℕ) (e : Int) (he : e ≤ 0) :
    ∃ K : Int, (K : ℚ) = (j : ℚ) / 2 ^ e := by
  obtain ⟨p, hp⟩ : ∃ p : ℕ, e = -(p : Int) := ⟨(-e).toNat, by omega⟩
  subst hp
  refine ⟨(j : Int) * 2 ^ p, ?_⟩
  rw [zpow_neg, zpow_natCast]
  push_cast
  field_simp

/-- The division step: for `n * k^2 <= S < n * (k+1)^2 <= 2^51` the rounded
quotient `S / n` stays in `[k^2, (k+1)^2)`, a margin below the upper end. -/
theorem roundFloat64_div (S n k : ℕ) (hn : 0 < n) (h1 : n * k ^ 2 ≤ S)
    (h2 : S < n * (k + 1) ^ 2) (h3 : n * (k + 1) ^ 2 ≤ 2 ^ 51) :
    ∃ y : ℚ, roundFloat64 ((S : ℚ) / (n : ℚ)) = some y ∧ (k : ℚ) ^ 2 ≤ y ∧
      y + ((k : ℚ) + 1) ^ 2 / 2 ^ 52 ≤ ((k : ℚ) + 1) ^ 2 := by
  have hnq : (0 : ℚ) < (n : ℚ) := by exact_mod_cast hn
  have h3q : (n : ℚ) * ((k : ℚ) + 1) ^ 2 ≤ 2 ^ 51 := by exact_mod_cast h3
  have hk1 : (1 : ℚ) ≤ ((k : ℚ) + 1) ^ 2 := by
    have : (0 : ℚ) ≤ (k : ℚ) := by positivity
    nlinarith
  rcases Nat.eq_zero_or_pos S with hS | hS
  · subst hS
    have hk : k = 0 := by
      by_contra hne
      have : 0 < k := Nat.pos_of_ne_zero hne
      have : 0 < n * k ^ 2 := by positivity
      omega
    subst hk
    refine ⟨0, ?_, by norm_num, by norm_num⟩
    have := roundFloat64_int 0 (by norm_num)
    simpa using this
  · have hSq : (1 : ℚ) ≤ (S : ℚ) := by exact_mod_cast hS
    have h1q : (n : ℚ) * (k : ℚ) ^ 2 ≤ (S : ℚ) := by exact_mod_cast h1
    have h2q : (S : ℚ) + 1 ≤ (n : ℚ) * ((k : ℚ) + 1) ^ 2 := by exact_mod_cast h2
    have hx : (0 : ℚ) < (S : ℚ) / (n : ℚ) := by positivity
    have hnle : (n : ℚ) ≤ 2 ^ 51 := by nlinarith
    have hxlo : (1 : ℚ) / 2 ^ 51 ≤ (S : ℚ) / (n : ℚ) := by
      rw [div_le_div_iff₀ (by positivity) hnq]
      nlinarith
    have hxk : (k : ℚ) ^ 2 ≤ (S : ℚ) / (n : ℚ) := by
      rw [le_div_iff₀ hnq]
      linarith
    have hxup : (S : ℚ) / (n : ℚ) + 1 / (n : ℚ) ≤ ((k : ℚ) + 1) ^ 2 := by
      rw [← add_div, div_le_iff₀ hnq]
      linarith
    have hinv : (0 : ℚ) < 1 / (n : ℚ) := by positivity
    have hk51 : ((k : ℚ) + 1) ^ 2 ≤ 2 ^ 51 / (n : ℚ) := by
      rw [le_div_iff₀ hnq]
      linarith
    have hx51 : (S : ℚ) / (n : ℚ) < 2 ^ 51 := by
      have : (2 : ℚ) ^ 51 / (n : ℚ) ≤ 2 ^ 51 := by
        apply div_le_self (by positivity)
        exact_mod_cast hn
      linarith
    obtain ⟨e, m, hr, he, hu, hf, hup, _⟩ :=
      roundFloat64_pos ((S : ℚ) / (n : ℚ)) hx
        (le_trans (by norm_num) hxlo) (lt_trans hx51 (by norm_num))
    have hb : 1 < (2 : ℕ) := by decide
    have hL : Int.log 2 ((S : ℚ) / (n : ℚ)) < 51 := by
      rw [← Int.lt_zpow_iff_log_lt hb hx]
      exact_mod_cast hx51
    have hupos : (0 : ℚ) < (2 : ℚ) ^ e := by positivity
    obtain ⟨K, hK⟩ := grid_of_nonpos (k ^ 2) e (by omega)
    have hKle : K ≤ m := by
      refine le_trans ?_ hf
      rw [Int.le_floor, hK]
      push_cast
      exact div_le_div_of_nonneg_right hxk hupos.le
    refine ⟨(m : ℚ) * 2 ^ e, hr, ?_, ?_⟩
    · have : (K : ℚ) * 2 ^ e ≤ (m : ℚ) * 2 ^ e :=
        mul_le_mul_of_nonneg_right (by exact_mod_cast hKle) hupos.le
      have hKu : (K : ℚ) * 2 ^ e = (k : ℚ) ^ 2 := by
        rw [hK]
        push_cast
        field_simp
      linarith
    · have hx1 : (S : ℚ) / (n : ℚ) ≤ ((k : ℚ) + 1) ^ 2 := by linarith
      have h4 : ((k : ℚ) + 1) ^ 2 / 2 ^ 52 ≤ (1 / (n : ℚ)) / 2 := by
        have : ((k : ℚ) + 1) ^ 2 / 2 ^ 52 ≤ (2 ^ 51 / (n : ℚ)) / 2 ^ 52 :=
          div_le_div_of_nonneg_right hk51 (by positivity)
        have e2 : ((2 : ℚ) ^ 51 / (n : ℚ)) / 2 ^ 52 = (1 / (n : ℚ)) / 2 := by
          field_simp
          ring
        linarith
      have h5 : (2 : ℚ) ^ e / 2 ≤ (1 / (n : ℚ)) / 4 := by
        have : (S : ℚ) / (n : ℚ) / 2 ^ 52 ≤ ((k : ℚ) + 1) ^ 2 / 2 ^ 52 :=
          div_le_div_of_nonneg_right hx1 (by positivity)
        linarith
      linarith


theorem sqrt_step_aux (a B T : ℚ) (hB : 2 ^ 52 ≤ B) (hBa : B ≤ a)
    (hd : a ^ 2 - a + 1 / 4 ≤ T) (hthi : T + B ^ 2 / 2 ^ 52 ≤ B ^ 2) : False := by
  have hB0 : (0 : ℚ) ≤ B := le_trans (by norm_num) hB
  have h1 : B * 2 ^ 52 ≤ B ^ 2 := by
    rw [pow_two]
    exact mul_le_mul_of_nonneg_left hB hB0
  have hq : B ≤ B ^ 2 / 2 ^ 52 := by
    rw [le_div_iff₀ (by positivity)]
    exact h1
  have hB1 : (1 : ℚ) ≤ B := le_trans (by norm_num) hB
  have h5 : 0 ≤ (a - B) * (a + B - 1) := mul_nonneg (by linarith) (by linarith)
  have h6 : (a - B) * (a + B - 1) = a ^ 2 - a - (B ^ 2 - B) := by ring
  rw [h6] at h5
  linarith

theorem sqrt_step_aux_low (a K T : ℚ) (ha : 0 ≤ a) (h : a + 1 ≤ K)
    (hN1 : T ≤ a ^ 2 + a + 1 / 4) (htlo : K ^ 2 ≤ T) : False := by
  have h1 : (a + 1) * (a + 1) ≤ K * K :=
    mul_le_mul h h (by linarith) (by linarith)
  have h2 : (a + 1) * (a + 1) = a ^ 2 + 2 * a + 1 := by ring
  have h3 : K * K = K ^ 2 := by ring
  linarith

theorem nearestSqrt_bounds (t : ℚ) (ht : 0 ≤ t) :
    t ≤ (nearestSqrt t : ℚ) ^ 2 + (nearestSqrt t : ℚ) + 1 / 4 ∧
      (1 ≤ nearestSqrt t → (nearestSqrt t : ℚ) ^ 2 - (nearestSqrt t : ℚ) + 1 / 4 ≤ t) := by
  have hlo : ((Nat.sqrt ⌊t⌋₊ : ℕ) : ℚ) ^ 2 ≤ t := by
    have h1 : ((Nat.sqrt ⌊t⌋₊ ^ 2 : ℕ) : ℚ) ≤ ((⌊t⌋₊ : ℕ) : ℚ) := by
      exact_mod_cast Nat.sqrt_le' ⌊t⌋₊
    have h2 := Nat.floor_le ht
    push_cast at h1
    linarith
  have hhi : t < (((Nat.sqrt ⌊t⌋₊ : ℕ) : ℚ) + 1) ^ 2 := by
    have h1 : ((⌊t⌋₊ + 1 : ℕ) : ℚ) ≤ (((Nat.sqrt ⌊t⌋₊ + 1) ^ 2 : ℕ) : ℚ) := by
      exact_mod_cast Nat.lt_succ_sqrt' ⌊t⌋₊
    have h2 := Nat.lt_floor_add_one t
    push_cast at h1
    linarith
  have hs0 : (0 : ℚ) ≤ ((Nat.sqrt ⌊t⌋₊ : ℕ) : ℚ) := by positivity
  unfold nearestSqrt
  simp only
  split_ifs with ha hb hc
  · refine ⟨by linarith, fun h1 => ?_⟩
    have : (1 : ℚ) ≤ ((Nat.sqrt ⌊t⌋₊ : ℕ) : ℚ) := by exact_mod_cast h1
    linarith
  · refine ⟨?_, fun _ => ?_⟩
    · push_cast
      nlinarith
    · push_cast
      nlinarith
  · refine ⟨by linarith, fun h1 => ?_⟩
    have : (1 : ℚ) ≤ ((Nat.sqrt ⌊t⌋₊ : ℕ) : ℚ) := by exact_mod_cast h1
    linarith
  · refine ⟨?_, fun _ => ?_⟩
    · push_cast
      nlinarith
    · push_cast
      nlinarith

/-- The square-root step: an argument in `[k^2, (k+1)^2)` that keeps the
margin `(k+1)^2 / 2^52` below the upper end has its rounded root in
`[k, k+1)`. -/
theorem roundedSqrt_between (y : ℚ) (k : ℕ) (hy : (k : ℚ) ^ 2 ≤ y)
    (hup : y + ((k : ℚ) + 1) ^ 2 / 2 ^ 52 ≤ ((k : ℚ) + 1) ^ 2)
    (hk : ((k : ℚ) + 1) ^ 2 ≤ 2 ^ 51) :
    ∃ z : ℚ, roundedSqrt y = some z ∧ (k : ℚ) ≤ z ∧ z < (k : ℚ) + 1 := by
  have hk0 : (0 : ℚ) ≤ (k : ℚ) := by positivity
  have hy0 : 0 ≤ y := le_trans (by positivity) hy
  have hk1 : (0 : ℚ) < ((k : ℚ) + 1) ^ 2 := by positivity
  have hylt : y < ((k : ℚ) + 1) ^ 2 := by
    have : (0 : ℚ) < ((k : ℚ) + 1) ^ 2 / 2 ^ 52 := by positivity
    linarith
  rcases eq_or_lt_of_le hy0 with h0 | hpos
  · subst h0
    have hkz : k = 0 := by
      by_contra hne
      have : (1 : ℚ) ≤ (k : ℚ) := by exact_mod_cast Nat.pos_of_ne_zero hne
      nlinarith
    subst hkz
    refine ⟨0, ?_, by norm_num, by norm_num⟩
    unfold roundedSqrt
    simp [nearestSqrt]
  · have hb : 1 < (2 : ℕ) := by decide
    have hL1 : ((2 : ℕ) : ℚ) ^ Int.log 2 y ≤ y := Int.zpow_log_le_self hb hpos
    have hL : Int.log 2 y < 51 := by
      rw [← Int.lt_zpow_iff_log_lt hb hpos]
      have : y < 2 ^ 51 := lt_of_lt_of_le hylt hk
      exact_mod_cast this
    obtain ⟨p, hp⟩ : ∃ p : ℕ, Int.log 2 y / 2 - 52 = -(p : Int) :=
      ⟨(-(Int.log 2 y / 2 - 52)).toNat, by omega⟩
    have hP : (0 : ℚ) < (2 : ℚ) ^ p := by positivity
    have h2e : (2 : ℚ) ^ (2 * -(p : Int)) = (((2 : ℚ) ^ p) ^ 2)⁻¹ := by
      rw [show (2 * -(p : Int)) = -((2 * p : ℕ) : Int) by push_cast; ring, zpow_neg,
        zpow_natCast, pow_mul']
    have he : (2 : ℚ) ^ (-(p : Int)) = ((2 : ℚ) ^ p)⁻¹ := by
      rw [zpow_neg, zpow_natCast]
    -- the spacing of the root is small against `k + 1`
    have hbig : (2 : ℚ) ^ 52 < ((k : ℚ) + 1) * 2 ^ p := by
      have h104 : (2 : ℚ) ^ (2 * -(p : Int) + 104) ≤ (2 : ℚ) ^ Int.log 2 y :=
        zpow_le_zpow_right₀ (by norm_num) (by omega)
      have hsplit : (2 : ℚ) ^ (2 * -(p : Int) + 104) = 2 ^ 104 / ((2 : ℚ) ^ p) ^ 2 := by
        rw [zpow_add₀ (by norm_num : (2 : ℚ) ≠ 0), h2e]
        norm_num
        ring
      have hL1' : (2 : ℚ) ^ Int.log 2 y ≤ y := by exact_mod_cast hL1
      have h3 : (2 : ℚ) ^ 104 / ((2 : ℚ) ^ p) ^ 2 < ((k : ℚ) + 1) ^ 2 := by
        rw [← hsplit]
        linarith
      rw [div_lt_iff₀ (by positivity)] at h3
      have h4 : ((2 : ℚ) ^ 52) ^ 2 < (((k : ℚ) + 1) * 2 ^ p) ^ 2 := by
        have : ((2 : ℚ) ^ 52) ^ 2 = 2 ^ 104 := by norm_num
        rw [this, mul_pow]
        exact h3
      exact lt_of_pow_lt_pow_left₀ 2 (by positivity) h4
    have ht0 : (0 : ℚ) ≤ y * ((2 : ℚ) ^ p) ^ 2 := by positivity
    obtain ⟨hN1, hN2⟩ := nearestSqrt_bounds (y * ((2 : ℚ) ^ p) ^ 2) ht0
    have htlo : ((k : ℚ) * 2 ^ p) ^ 2 ≤ y * ((2 : ℚ) ^ p) ^ 2 := by
      rw [mul_pow]
      exact mul_le_mul_of_nonneg_right hy (by positivity)
    have hthi : y * ((2 : ℚ) ^ p) ^ 2 + (((k : ℚ) + 1) * 2 ^ p) ^ 2 / 2 ^ 52 ≤
        (((k : ℚ) + 1) * 2 ^ p) ^ 2 := by
      have := mul_le_mul_of_nonneg_right hup (by positivity : (0 : ℚ) ≤ ((2 : ℚ) ^ p) ^ 2)
      rw [mul_pow]
      have e1 : (y + ((k : ℚ) + 1) ^ 2 / 2 ^ 52) * ((2 : ℚ) ^ p) ^ 2 =
          y * ((2 : ℚ) ^ p) ^ 2 + ((k : ℚ) + 1) ^ 2 * ((2 : ℚ) ^ p) ^ 2 / 2 ^ 52 := by ring
      linarith
    -- the integer chosen lies between `k * 2^p` and `(k + 1) * 2^p`
    have hlow : (k : ℚ) * 2 ^ p ≤ (nearestSqrt (y * ((2 : ℚ) ^ p) ^ 2) : ℚ) := by
      by_contra hcon
      push_neg at hcon
      have hnat : nearestSqrt (y * ((2 : ℚ) ^ p) ^ 2) < k * 2 ^ p := by exact_mod_cast hcon
      have hnat' : ((nearestSqrt (y * ((2 : ℚ) ^ p) ^ 2) + 1 : ℕ) : ℚ) ≤ ((k * 2 ^ p : ℕ) : ℚ) := by
        exact_mod_cast hnat
      push_cast at hnat'
      have hns : (0 : ℚ) ≤ (nearestSqrt (y * ((2 : ℚ) ^ p) ^ 2) : ℚ) := by positivity
      exact sqrt_step_aux_low _ _ _ hns hnat' hN1 htlo
    have hhigh : (nearestSqrt (y * ((2 : ℚ) ^ p) ^ 2) : ℚ) < ((k : ℚ) + 1) * 2 ^ p := by
      by_contra hcon
      push_neg at hcon
      have hK1 : (1 : ℚ) ≤ ((k : ℚ) + 1) * 2 ^ p := by
        have : (1 : ℚ) ≤ 2 ^ 52 := by norm_num
        linarith
      have h1 : 1 ≤ nearestSqrt (y * ((2 : ℚ) ^ p) ^ 2) := by
        have : (1 : ℚ) ≤ (nearestSqrt (y * ((2 : ℚ) ^ p) ^ 2) : ℚ) := le_trans hK1 hcon
        exact_mod_cast this
      exact sqrt_step_aux _ _ _ hbig.le hcon (hN2 h1) hthi
    refine ⟨(nearestSqrt (y * ((2 : ℚ) ^ p) ^ 2) : ℚ) * ((2 : ℚ) ^ p)⁻¹, ?_, ?_, ?_⟩
    · unfold roundedSqrt
      rw [if_neg (not_lt.mpr hy0)]
      simp only [hp, h2e, he, div_inv_eq_mul]
    · rw [← div_eq_mul_inv, le_div_iff₀ hP]
      exact hlow
    · rw [← div_eq_mul_inv, div_lt_iff₀ hP]
      exact hhigh


theorem float64ToInt64_floor (z : ℚ) (k : ℕ) (h1 : (k : ℚ) ≤ z) (h2 : z < (k : ℚ) + 1)
    (hk : k < 2 ^ 63) : float64ToInt64 z = some (k : Int) := by
  have hz : 0 ≤ z := le_trans (by positivity) h1
  have hf : ⌊z⌋ = (k : Int) := by
    rw [Int.floor_eq_iff]
    constructor
    · exact_mod_cast h1
    · exact_mod_cast h2
  unfold float64ToInt64
  simp only [hz, if_true, hf]
  have hr : -(2 ^ 63) ≤ (k : Int) ∧ (k : Int) < 2 ^ 63 := by omega
  rw [if_pos hr]

/-- The mean deviation in the range where `float64` is accurate enough:
when `m` is the integer part of the square root of `sqDev / n` and
`n * (m + 1)^2 <= 2^51`, the computation returns `m`. -/
theorem computeMdev_eq (rtts : List Int) (avg : Int) (m : ℕ)
    (h1 : (rtts.length : Int) * (m : Int) ^ 2 ≤ sqDev rtts avg)
    (h2 : sqDev rtts avg < (rtts.length : Int) * ((m : Int) + 1) ^ 2)
    (h3 : (rtts.length : Int) * ((m : Int) + 1) ^ 2 ≤ 2 ^ 51) :
    computeMdev rtts avg = some (m : Int) := by
  have hS0 := sqDev_nonneg rtts avg
  obtain ⟨S, hS⟩ : ∃ S : ℕ, sqDev rtts avg = (S : Int) := ⟨(sqDev rtts avg).toNat, by omega⟩
  have hn : 0 < rtts.length := by
    rcases Nat.eq_zero_or_pos rtts.length with h0 | h0
    · rw [h0] at h2
      simp at h2
      omega
    · exact h0
  have hfold : rtts.foldlM (sqDiffStep avg) (0 : ℚ) = some (S : ℚ) := by
    have := foldlM_sqDiffStep_exact avg rtts 0 (le_refl 0) (by omega)
    rw [hS] at this
    simpa using this
  have hnq : roundedOfInt (rtts.length : Int) = some (rtts.length : ℚ) := by
    have hlen : (rtts.length : Int) < 2 ^ 53 := by
      have : (1 : Int) ≤ ((m : Int) + 1) ^ 2 := by
        have : (0 : Int) ≤ (m : Int) := by positivity
        nlinarith
      nlinarith
    have := roundFloat64_int (rtts.length : Int) (by
      rw [abs_of_nonneg (by positivity)]
      exact_mod_cast hlen)
    simpa [roundedOfInt] using this
  have hne0 : (rtts.length : ℚ) ≠ 0 := by
    have : (0 : ℚ) < (rtts.length : ℚ) := by exact_mod_cast hn
    exact ne_of_gt this
  obtain ⟨y, hy, hylo, hyhi⟩ := roundFloat64_div S rtts.length m hn
    (by rw [hS] at h1; exact_mod_cast h1) (by rw [hS] at h2; exact_mod_cast h2)
    (by exact_mod_cast h3)
  have hk51 : ((m : ℚ) + 1) ^ 2 ≤ 2 ^ 51 := by
    have h3q : ((rtts.length : ℕ) : ℚ) * ((m : ℚ) + 1) ^ 2 ≤ 2 ^ 51 := by exact_mod_cast h3
    have h1n : (1 : ℚ) ≤ (rtts.length : ℚ) := by exact_mod_cast hn
    have hsq : (0 : ℚ) ≤ ((m : ℚ) + 1) ^ 2 := by positivity
    nlinarith
  obtain ⟨z, hz, hzlo, hzhi⟩ := roundedSqrt_between y m hylo hyhi hk51
  have hm63 : m < 2 ^ 63 := by
    have h51 : ((m : Int) + 1) ^ 2 ≤ 2 ^ 51 := by exact_mod_cast hk51
    have : (0 : Int) ≤ (m : Int) := by positivity
    have : (m : Int) < 2 ^ 63 := by nlinarith
    exact_mod_cast this
  unfold computeMdev
  rw [hfold]
  simp only [Option.bind_eq_bind, Option.some_bind, hn, if_true, gt_iff_lt, hnq]
  unfold roundedDiv
  rw [if_neg hne0, hy]
  simp only [Option.some_bind, hz]
  exact float64ToInt64_floor z m hzlo hzhi hm63


/-! ## Evaluating the rounded operations -/

/-- Evaluation of a rounding: a positive `q` in the binade of exponent
`e + 52` whose scaled value is strictly within one half of the integer `m`
rounds to `m * 2^e`. -/
theorem roundFloat64_eval (q : ℚ) (e m : Int) (hq : 0 < q) (h1 : (2 : ℚ) ^ (e + 52) ≤ q)
    (h2 : q < (2 : ℚ) ^ (e + 52 + 1)) (he : -1074 ≤ e) (hm : |q / 2 ^ e - (m : ℚ)| < 1 / 2)
    (hov : |(m : ℚ) * 2 ^ e| < 2 ^ 1024) : roundFloat64 q = some ((m : ℚ) * 2 ^ e) := by
  have hlog := log_two_eq q (e + 52) hq h1 h2
  have hu : ulpExp q = e := by
    unfold ulpExp
    rw [abs_of_pos hq, hlog]
    have : e + 52 - 52 = e := by ring
    rw [this]
    exact max_eq_left he
  unfold roundFloat64
  simp only [hu, roundHalfEven_eq _ m hm, hov, if_true]

theorem nearestSqrt_eval (t : ℚ) (m : ℕ) (ht : 0 ≤ t)
    (hlo : (m : ℚ) ^ 2 - (m : ℚ) + 1 / 4 < t) (hhi : t < (m : ℚ) ^ 2 + (m : ℚ) + 1 / 4) :
    nearestSqrt t = m := by
  obtain ⟨hN1, hN2⟩ := nearestSqrt_bounds t ht
  have hle : nearestSqrt t ≤ m := by
    by_contra hcon
    push_neg at hcon
    have h1 : 1 ≤ nearestSqrt t := by omega
    have hd := hN2 h1
    have hc : ((m + 1 : ℕ) : ℚ) ≤ (nearestSqrt t : ℚ) := by exact_mod_cast hcon
    push_cast at hc
    have hm0 : (0 : ℚ) ≤ (m : ℚ) := by positivity
    have h5 : 0 ≤ ((nearestSqrt t : ℚ) - ((m : ℚ) + 1)) * ((nearestSqrt t : ℚ) + (m : ℚ)) :=
      mul_nonneg (by linarith) (by linarith)
    have h6 : ((nearestSqrt t : ℚ) - ((m : ℚ) + 1)) * ((nearestSqrt t : ℚ) + (m : ℚ)) =
        (nearestSqrt t : ℚ) ^ 2 - (nearestSqrt t : ℚ) - ((m : ℚ) ^ 2 + (m : ℚ)) := by ring
    rw [h6] at h5
    linarith
  have hge : m ≤ nearestSqrt t := by
    by_contra hcon
    push_neg at hcon
    have hc : ((nearestSqrt t + 1 : ℕ) : ℚ) ≤ (m : ℚ) := by exact_mod_cast hcon
    push_cast at hc
    have hn0 : (0 : ℚ) ≤ (nearestSqrt t : ℚ) := by positivity
    have h5 : 0 ≤ ((m : ℚ) - ((nearestSqrt t : ℚ) + 1)) * ((m : ℚ) + (nearestSqrt t : ℚ)) :=
      mul_nonneg (by linarith) (by linarith)
    have h6 : ((m : ℚ) - ((nearestSqrt t : ℚ) + 1)) * ((m : ℚ) + (nearestSqrt t : ℚ)) =
        (m : ℚ) ^ 2 - (m : ℚ) - ((nearestSqrt t : ℚ) ^ 2 + (nearestSqrt t : ℚ)) := by ring
    rw [h6] at h5
    linarith
  omega

/-- Evaluation of a square root: for `y` in the binade of exponent `L`, with
`e = L / 2 - 52`, if the root of `y / 2^(2e)` lies strictly within one half
of `m`, the rounded root is `m * 2^e`. -/
theorem roundedSqrt_eval (y : ℚ) (L e : Int) (m : ℕ) (hy : 0 < y) (h1 : (2 : ℚ) ^ L ≤ y)
    (h2 : y < (2 : ℚ) ^ (L + 1)) (he : e = L / 2 - 52)
    (hlo : (m : ℚ) ^ 2 - (m : ℚ) + 1 / 4 < y / 2 ^ (2 * e))
    (hhi : y / 2 ^ (2 * e) < (m : ℚ) ^ 2 + (m : ℚ) + 1 / 4) :
    roundedSqrt y = some ((m : ℚ) * 2 ^ e) := by
  have hlog := log_two_eq y L hy h1 h2
  have ht : 0 ≤ y / 2 ^ (2 * e) := by positivity
  unfold roundedSqrt
  rw [if_neg (not_lt.mpr hy.le)]
  simp only [hlog, ← he, nearestSqrt_eval _ m ht hlo hhi]


theorem sqDiffStep_eval (avg r d : Int) (acc sq acc' : ℚ) (hw : wrapInt64 (r - avg) = d)
    (hd : roundFloat64 (d : ℚ) = some (d : ℚ))
    (hsq : roundFloat64 ((d : ℚ) * (d : ℚ)) = some sq)
    (hadd : roundFloat64 (acc + sq) = some acc') : sqDiffStep avg acc r = some acc' := by
  unfold sqDiffStep roundedOfInt roundedMul roundedAdd
  rw [hw, hd]
  simp only [Option.bind_eq_bind, Option.some_bind]
  rw [hsq]
  simp only [Option.some_bind]
  exact hadd

theorem roundFloat64_eval_to (q r : ℚ) (e m : Int) (hq : 0 < q)
    (h1 : (2 : ℚ) ^ (e + 52) ≤ q) (h2 : q < (2 : ℚ) ^ (e + 52 + 1)) (he : -1074 ≤ e)
    (hm : |q / 2 ^ e - (m : ℚ)| < 1 / 2) (hr : (m : ℚ) * 2 ^ e = r)
    (hov : |r| < 2 ^ 1024) : roundFloat64 q = some r := by
  subst hr
  exact roundFloat64_eval q e m hq h1 h2 he hm hov



/-! ## The mean deviation of `roundingSample`, step by step -/

theorem roundingSample_square : roundFloat64 ((318281039 : ℚ) * 318281039) = some 101302819786919520 :=
    roundFloat64_eval_to _ _ 4 6331426236682470 (by norm_num) (by norm_num) (by norm_num)
      (by norm_num) (by norm_num [abs_lt]) (by norm_num) (by norm_num [abs_lt])
theorem roundingSample_step1 : sqDiffStep 400000000 0 718281039 = some 101302819786919520 :=
    sqDiffStep_eval 400000000 718281039 318281039 0 101302819786919520 _
      (by decide) (roundFloat64_int 318281039 (by norm_num [abs_lt]))
      (by exact_mod_cast roundingSample_square)
      (roundFloat64_eval_to _ _ 4 6331426236682470 (by norm_num) (by norm_num) (by norm_num)
        (by norm_num) (by norm_num [abs_lt]) (by norm_num) (by norm_num [abs_lt]))
theorem roundingSample_step2 : sqDiffStep 400000000 101302819786919520 81718961 = some 202605639573839040 :=
    sqDiffStep_eval 400000000 81718961 (-318281039) _ 101302819786919520 _
      (by decide) (roundFloat64_int (-318281039) (by norm_num [abs_lt]))
      (by
        have : (((-318281039 : Int) : ℚ)) * (((-318281039 : Int) : ℚ)) =
            (318281039 : ℚ) * 318281039 := by norm_num
        rw [this]
        exact roundingSample_square)
      (roundFloat64_eval_to _ _ 5 6331426236682470 (by norm_num) (by norm_num) (by norm_num)
        (by norm_num) (by norm_num [abs_lt]) (by norm_num) (by norm_num [abs_lt]))
theorem roundingSample_step3 : sqDiffStep 400000000 202605639573839040 400000001 = some 202605639573839040 :=
    sqDiffStep_eval 400000000 400000001 1 _ 1 _
      (by decide) (roundFloat64_int 1 (by norm_num [abs_lt]))
      (by
        have := roundFloat64_int 1 (by norm_num [abs_lt])
        simpa using this)
      (roundFloat64_eval_to _ _ 5 6331426236682470 (by norm_num) (by norm_num) (by norm_num)
        (by norm_num) (by norm_num [abs_lt]) (by norm_num) (by norm_num [abs_lt]))
theorem roundingSample_count : roundedOfInt ((roundingSample.length : ℕ) : Int) = some 4 := by
    have := roundFloat64_int 4 (by norm_num [abs_lt])
    simpa [roundedOfInt, roundingSample] using this
theorem roundingSample_quotient : roundedDiv 202605639573839040 4 = some 50651409893459760 := by
    unfold roundedDiv
    rw [if_neg (by norm_num)]
    exact roundFloat64_eval_to _ _ 3 6331426236682470 (by norm_num) (by norm_num) (by norm_num)
      (by norm_num) (by norm_num [abs_lt]) (by norm_num) (by norm_num [abs_lt])
theorem roundingSample_root : roundedSqrt 50651409893459760 = some 225058681 := by
    have := roundedSqrt_eval 50651409893459760 55 (-25) 7551716207624192 (by norm_num)
      (by norm_num) (by norm_num) (by decide) (by norm_num) (by norm_num)
    rw [this]
    norm_num

theorem roundingSample_step4 : sqDiffStep 400000000 202605639573839040 400000000 = some 202605639573839040 :=
    sqDiffStep_eval 400000000 400000000 0 _ 0 _
      (by decide) (roundFloat64_int 0 (by norm_num))
      (by
        have := roundFloat64_int 0 (by norm_num)
        simpa using this)
      (roundFloat64_eval_to _ _ 5 6331426236682470 (by norm_num) (by norm_num) (by norm_num)
        (by norm_num) (by norm_num [abs_lt]) (by norm_num) (by norm_num [abs_lt]))
theorem foldlM_four (f : ℚ → Int → Option ℚ) (a b c d : Int) (x0 x1 x2 x3 x4 : ℚ)
    (h1 : f x0 a = some x1) (h2 : f x1 b = some x2) (h3 : f x2 c = some x3)
    (h4 : f x3 d = some x4) : [a, b, c, d].foldlM f x0 = some x4 := by
  simp [h1, h2, h3, h4]

theorem roundingSample_fold : roundingSample.foldlM (sqDiffStep 400000000) (0 : ℚ) =
      some 202605639573839040 :=
  foldlM_four _ _ _ _ _ _ _ _ _ _ roundingSample_step1 roundingSample_step2 roundingSample_step3 roundingSample_step4
theorem roundingSample_truncate : float64ToInt64 225058681 = some 225058681 := by
    have := float64ToInt64_floor 225058681 225058681 (by norm_num) (by norm_num) (by norm_num)
    simpa using this
theorem computeMdev_of_steps (rtts : List Int) (avg : Int) (sq n q root : ℚ) (m : Int)
    (hpos : rtts.length > 0) (h1 : rtts.foldlM (sqDiffStep avg) (0 : ℚ) = some sq)
    (h2 : roundedOfInt (rtts.length : Int) = some n) (h3 : roundedDiv sq n = some q)
    (h4 : roundedSqrt q = some root) (h5 : float64ToInt64 root = some m) :
    computeMdev rtts avg = some m := by
  unfold computeMdev
  rw [h1]
  simp only [Option.bind_eq_bind, Option.some_bind]
  rw [if_pos hpos, h2]
  simp only [Option.some_bind, h3, h4]
  exact h5

theorem computeMdev_roundingSample : computeMdev roundingSample 400000000 = some 225058681 :=
  computeMdev_of_steps roundingSample 400000000 _ _ _ _ _ (by decide) roundingSample_fold roundingSample_count roundingSample_quotient roundingSample_root roundingSample_truncate

/-! ## The exact fragment inside the rounded model -/

/-- The exact fragment lies inside the rounded model: a rational that passes
`exactFloat64` is its own rounding. -/
theorem roundFloat64_of_exact (q : ℚ) (h : exactFloat64 q = true) : roundFloat64 q = some q := by
  unfold exactFloat64 at h
  simp only [Bool.and_eq_true, decide_eq_true_eq] at h
  obtain ⟨⟨hnum, hden⟩, hk⟩ := h
  generalize hkdef : Nat.log2 q.den = k at hden hk
  have hnumq : |(q.num : ℚ)| < 2 ^ 53 := by
    have : |q.num| < 2 ^ 53 := by
      rw [Int.abs_eq_natAbs]
      exact_mod_cast hnum
    exact_mod_cast this
  have hqeq : q = (q.num : ℚ) / (2 : ℚ) ^ k := by
    have h1 : ((q.den : ℕ) : ℚ) = (2 : ℚ) ^ k := by
      rw [← hden]
      push_cast
      rfl
    rw [← h1]
    exact (Rat.num_div_den q).symm
  have hPk : (0 : ℚ) < (2 : ℚ) ^ k := by positivity
  have habs : |q| < (2 : ℚ) ^ ((52 - (k : Int)) + 1) := by
    have e1 : (2 : ℚ) ^ ((52 - (k : Int)) + 1) = 2 ^ 53 / (2 : ℚ) ^ k := by
      rw [show (52 - (k : Int)) + 1 = (53 : Int) - (k : Int) by ring,
        zpow_sub₀ (by norm_num : (2 : ℚ) ≠ 0), zpow_natCast]
      norm_num
    rw [e1, hqeq, abs_div, abs_of_pos hPk]
    exact div_lt_div_of_pos_right hnumq hPk
  have hL : Int.log 2 |q| ≤ 52 - (k : Int) := by
    rcases eq_or_lt_of_le (abs_nonneg q) with h0 | h0
    · have hq0 : q = 0 := abs_eq_zero.mp h0.symm
      have hd1 : q.den = 1 := by rw [hq0]; rfl
      have hk0 : k = 0 := by
        rw [hd1] at hden
        by_contra hne
        have : 2 ≤ 2 ^ k := by
          calc 2 = 2 ^ 1 := by norm_num
            _ ≤ 2 ^ k := Nat.pow_le_pow_right (by norm_num) (Nat.pos_of_ne_zero hne)
        omega
      rw [← h0, Int.log_zero_right, hk0]
      norm_num
    · have hb : 1 < (2 : ℕ) := by decide
      have hc : Int.log 2 |q| < (52 - (k : Int)) + 1 := by
        rw [← Int.lt_zpow_iff_log_lt hb h0]
        exact_mod_cast habs
      omega
  have he1 : ulpExp q ≤ -(k : Int) := by
    unfold ulpExp
    exact max_le (by omega) (by omega)
  obtain ⟨p, hp⟩ : ∃ p : ℕ, ulpExp q = -((p + k : ℕ) : Int) :=
    ⟨(-ulpExp q - k).toNat, by push_cast; omega⟩
  have hgrid : (roundHalfEven (q / 2 ^ ulpExp q) : ℚ) * 2 ^ ulpExp q = q := by
    rw [hp, zpow_neg, zpow_natCast]
    have h3 : q / ((2 : ℚ) ^ (p + k))⁻¹ = ((q.num * 2 ^ p : Int) : ℚ) := by
      rw [div_inv_eq_mul]
      nth_rewrite 1 [hqeq]
      push_cast
      rw [pow_add]
      field_simp
      ring
    rw [h3, roundHalfEven_intCast]
    nth_rewrite 2 [hqeq]
    push_cast
    rw [pow_add]
    field_simp
    ring
  have hlt : |q| < 2 ^ 1024 := by
    have h1 : |q| ≤ |(q.num : ℚ)| := by
      nth_rewrite 1 [hqeq]
      rw [abs_div, abs_of_pos hPk]
      apply div_le_self (abs_nonneg _)
      exact one_le_pow₀ (by norm_num)
    have : (2 : ℚ) ^ 53 < 2 ^ 1024 := by norm_num
    linarith
  unfold roundFloat64
  simp only [hgrid, hlt, if_true]

theorem float64OfInt_rounded (i : Int) (v : ℚ) (h : float64OfInt i = some v) :
    roundedOfInt i = some v := by
  unfold float64OfInt at h
  split at h
  · rename_i hex
    rw [← Option.some.inj h]
    exact roundFloat64_of_exact _ hex
  · exact absurd h (by simp)

theorem float64Mul_rounded (a b v : ℚ) (h : float64Mul a b = some v) :
    roundedMul a b = some v := by
  unfold float64Mul at h
  split at h
  · rename_i hex
    rw [← Option.some.inj h]
    exact roundFloat64_of_exact _ hex
  · exact absurd h (by simp)

theorem float64Div_rounded (a b v : ℚ) (h : float64Div a b = some v) :
    roundedDiv a b = some v := by
  unfold float64Div at h
  split at h
  · rename_i hex
    rw [← Option.some.inj h]
    unfold roundedDiv
    rw [if_neg hex.1]
    exact roundFloat64_of_exact _ hex.2
  · exact absurd h (by simp)

/-! ## Claims about the mean deviation -/

/-- C11 (as stated, refuted): on `roundingSample` the computed `avg` is
400000000 and the computed `mdev` is 225058681, while the sum of squared
deviations 202605639573839043 divided by 4 has its square root between
225058680 and 225058681: the population standard deviation taken to whole
nanoseconds is 225058680. -/
theorem computeMdev_roundingSample_off_by_one :
    computeAvg (computeStats roundingSample).sum roundingSample = 400000000 ∧
      computeMdev roundingSample 400000000 = some 225058681 ∧
      sqDev roundingSample 400000000 = 202605639573839043 ∧
      (4 : Int) * 225058680 ^ 2 ≤ 202605639573839043 ∧
      (202605639573839043 : Int) < 4 * 225058681 ^ 2 :=
  ⟨by decide, computeMdev_roundingSample, by decide, by decide, by decide⟩

/-- C11 (amended): let `n` be the number of samples and `m` the whole number
with `n * m^2 <= sum of (sample - avg)^2 < n * (m + 1)^2`, that is the
population standard deviation (divisor `n`) taken to whole nanoseconds.
Whenever `n * (m + 1)^2 <= 2^51` the computed `mdev` is exactly `m` (the
second hypothesis makes the list non-empty). -/
theorem computeMdev_exact (rtts : List Int) (m : ℕ)
    (h1 : (rtts.length : Int) * (m : Int) ^ 2 ≤
      sqDev rtts (computeAvg (computeStats rtts).sum rtts))
    (h2 : sqDev rtts (computeAvg (computeStats rtts).sum rtts) <
      (rtts.length : Int) * ((m : Int) + 1) ^ 2)
    (h3 : (rtts.length : Int) * ((m : Int) + 1) ^ 2 ≤ 2 ^ 51) :
    computeMdev rtts (computeAvg (computeStats rtts).sum rtts) = some (m : Int) :=
  computeMdev_eq rtts _ m h1 h2 h3

/-- C11 (amended), at the samples 10 ms, 20 ms, 30 ms: `avg` is 20 ms and
`mdev` is 8164965 ns, about 8.165 ms. -/
theorem computeMdev_exact_witness :
    computeAvg (computeStats [10000000, 20000000, 30000000]).sum
        [10000000, 20000000, 30000000] = 20000000 ∧
      computeMdev [10000000, 20000000, 30000000]
          (computeAvg (computeStats [10000000, 20000000, 30000000]).sum
            [10000000, 20000000, 30000000]) = some ((8164965 : ℕ) : Int) :=
  ⟨by decide,
    computeMdev_exact [10000000, 20000000, 30000000] 8164965 (by decide) (by decide)
      (by decide)⟩

end Ping
